import Mathlib

/-!
# Verification of the rope-based text buffer (`RopeModel`)

This file is a shallow embedding of the rope text-buffer engine
(`RopeModel` in the repository source) in Lean 4, together with proofs of
the specification's testable properties.

Modelling conventions:
* JavaScript strings are modelled as `List Char` (`Str`); `slice(a, b)`
  with non-negative indices is `(·.drop a).take (b - a)`, indexing is
  `List.get?`.
* JavaScript numbers that can be negative at the public API boundary
  (`line`, `char`, `count` arguments) are `Int`; internal offsets, which
  the source always keeps non-negative, are `Nat`.  `Math.max(0, x)` on a
  possibly negative quantity is made explicit with `Int.toNat` / truncated
  `Nat` subtraction, which agree with the source's arithmetic.
* The `EventEmitter` side effects are made explicit: every mutator returns
  the new model state together with the list of events it emits, in order.
* The explicit-stack traversals of the source (`getNewlineOffset`,
  `lineInfoAtOffset`) pop a node and push its children, which is exactly a
  left-to-right depth-first traversal; they are embedded as structural
  recursions performing the same traversal with the same accumulated
  state, including the early-exit (`break`) behaviour.
-/

abbrev Str := List Char

/-- Maximum leaf chunk size of the rope (`MAX_LEAF_SIZE` in the source). -/
def MAX_LEAF_SIZE : Nat := 2048

/-- A leaf node: a text chunk plus cached metadata
(`text`, `length`, `lines`, `newlines` fields of the source's `RopeLeaf`). -/
structure RopeLeaf where
  text : Str
  length : Nat
  lines : Nat
  newlines : List Nat
deriving Repr, DecidableEq

/-- A rope node: leaf or internal node with cached `length`/`lines`
(the source's `RopeNode = RopeLeaf | RopeInternal`). -/
inductive RopeNode where
  | leaf (l : RopeLeaf)
  | node (left right : RopeNode) (length : Nat) (lines : Nat)
deriving Repr, DecidableEq

/-- `node.length`: the cached length field. -/
def RopeNode.length : RopeNode → Nat
  | .leaf l => l.length
  | .node _ _ len _ => len

/-- `node.lines`: the cached line-count field. -/
def RopeNode.lines : RopeNode → Nat
  | .leaf l => l.lines
  | .node _ _ _ ln => ln

/-- The `emptyLeaf()` constant of the source. -/
def emptyLeaf : RopeLeaf := ⟨[], 0, 1, []⟩

/-- Offsets of all `'\n'` characters in a string, ascending
(the loop in the source's `createLeaf`). -/
def newlinePositions : Str → List Nat
  | [] => []
  | c :: rest =>
      (if c = '\n' then [0] else []) ++ (newlinePositions rest).map (· + 1)

/-- `createLeaf(text)`: a leaf with freshly computed metadata. -/
def createLeaf (t : Str) : RopeLeaf :=
  ⟨t, t.length, (newlinePositions t).length + 1, newlinePositions t⟩

/-- `concat(left, right)`: null-safe join creating an internal node with
summed cached metadata. -/
def concat : Option RopeNode → Option RopeNode → RopeNode
  | none, some r => r
  | none, none => .leaf emptyLeaf
  | some l, none => l
  | some l, some r => .node l r (l.length + r.length) (l.lines + r.lines - 1)

/-- `split(node, offset)`: two (possibly empty) subtrees whose concatenation
reconstructs `node`. -/
def split : RopeNode → Nat → Option RopeNode × Option RopeNode
  | n, offset =>
    if offset = 0 then (none, some n)
    else if n.length ≤ offset then (some n, none)
    else
      match n with
      | .leaf l =>
          (some (.leaf (createLeaf (l.text.take offset))),
           some (.leaf (createLeaf (l.text.drop offset))))
      | .node a b _ _ =>
          if offset < a.length then
            let p := split a offset
            (p.1, some (concat p.2 (some b)))
          else
            let p := split b (offset - a.length)
            (some (concat (some a) p.1), p.2)

/-- The source calls `split` on the possibly-null result of a previous
split.  On `null` with a positive offset the JavaScript code would throw
(`node.length` on `null`); that call site is unreachable from the public
API (proved below via the `validStep` invariants), so the `none` case here
returns an empty pair. -/
def splitOption : Option RopeNode → Nat → Option RopeNode × Option RopeNode
  | some n, offset => split n offset
  | none, _ => (none, none)

/-- Fuel-driven helper for the chunking loop of `fromText`
(`for (i = 0; i < text.length; i += MAX_LEAF_SIZE)`); the fuel is an upper
bound on the remaining text length, so with fuel `t.length` this is exactly
the source loop. -/
def chunkAux : Nat → Str → List RopeLeaf
  | _, [] => []
  | 0, _ => []
  | fuel + 1, t => createLeaf (t.take MAX_LEAF_SIZE) :: chunkAux fuel (t.drop MAX_LEAF_SIZE)

/-- The list of `MAX_LEAF_SIZE` chunks of `t` as leaves. -/
def chunkLeaves (t : Str) : List RopeLeaf := chunkAux t.length t

/-- Fuel-driven helper for `buildBalanced(leaves, start, end)`: recursive
midpoint partition.  The source's index pair `(start, end)` is represented
by the sublist `leaves[start..end)`; the midpoint `(start+end)/2` then
corresponds to splitting off the first `length/2` elements.  The fuel is an
upper bound on the list length, so the fuel-0 case (for a list of length
at least 2) is unreachable. -/
def buildBalancedAux : Nat → List RopeLeaf → RopeNode
  | _, [] => .leaf emptyLeaf
  | _, [l] => .leaf l
  | 0, _ => .leaf emptyLeaf
  | fuel + 1, ls =>
      concat (some (buildBalancedAux fuel (ls.take (ls.length / 2))))
        (some (buildBalancedAux fuel (ls.drop (ls.length / 2))))

/-- `buildBalanced`: build a balanced tree from a leaf array. -/
def buildBalanced (ls : List RopeLeaf) : RopeNode := buildBalancedAux ls.length ls

/-- `fromText(text)`: a single leaf for short text, otherwise a balanced
tree of `MAX_LEAF_SIZE` chunks. -/
def fromText (t : Str) : RopeNode :=
  if t.length ≤ MAX_LEAF_SIZE then .leaf (createLeaf t)
  else buildBalanced (chunkLeaves t)

/-- Plain left-to-right leaf collector dropping empty leaves (used for the
re-split case of `collectLeaves`: `fromText` output never contains empty or
oversized leaves, so on it the source's `collectLeaves` is this plain
collector). -/
def leavesOf : RopeNode → List RopeLeaf
  | .leaf l => if l.length = 0 then [] else [l]
  | .node a b _ _ => leavesOf a ++ leavesOf b

/-- `collectLeaves`: collect non-empty leaves left to right, re-splitting
any oversized leaf via `fromText`. -/
def collectLeaves : RopeNode → List RopeLeaf
  | .leaf l =>
      if l.length = 0 then []
      else if MAX_LEAF_SIZE * 2 < l.length then leavesOf (fromText l.text)
      else [l]
  | .node a b _ _ => collectLeaves a ++ collectLeaves b

/-- `rebalance(node)`: rebuild a balanced tree from the collected leaves. -/
def rebalance (n : RopeNode) : RopeNode := buildBalanced (collectLeaves n)

/-- Abstraction function: the document text represented by a rope node. -/
def toText : RopeNode → Str
  | .leaf l => l.text
  | .node a b _ _ => toText a ++ toText b

/-- The per-leaf metadata invariant: cached `length`, `lines` and
`newlines` agree with the leaf text. -/
def goodLeaf (l : RopeLeaf) : Bool :=
  l.length == l.text.length &&
  l.newlines == newlinePositions l.text &&
  l.lines == (newlinePositions l.text).length + 1

/-- The metadata invariant of the data model: every leaf satisfies
`goodLeaf`, and every internal node's cached `length`/`lines` are the exact
sums `left.length + right.length` and `left.lines + right.lines - 1`. -/
def goodNode : RopeNode → Bool
  | .leaf l => goodLeaf l
  | .node a b len ln =>
      goodNode a && goodNode b && (len == a.length + b.length) &&
        (ln == a.lines + b.lines - 1)

/-- A `(line, char)` cursor with the non-negative values the model stores
and emits (clamped cursors). -/
structure CursorPosition where
  line : Nat
  char : Nat
deriving Repr, DecidableEq

/-- A cursor position as supplied by a caller, before clamping: the
components are arbitrary JavaScript numbers. -/
structure InputCursor where
  line : Int
  char : Int
deriving Repr, DecidableEq

/-- View a clamped cursor as an input cursor. -/
def CursorPosition.toInput (c : CursorPosition) : InputCursor := ⟨c.line, c.char⟩

/-- The two variants of the source's `RopeChange` union. -/
inductive ChangeKind where
  | insert
  | delete
deriving Repr, DecidableEq

/-- A change record (`RopeChange`). -/
structure RopeChange where
  kind : ChangeKind
  offset : Nat
  text : Str
  cursorBefore : CursorPosition
  cursorAfter : CursorPosition
  cursorOffsetBefore : Nat
  cursorOffsetAfter : Nat
deriving Repr, DecidableEq

/-- The model's event notifications (`ModelEventType`). -/
inductive Event where
  | cursorMoved (c : CursorPosition)
  | contentChanged
deriving Repr, DecidableEq

/-- The mutable state of a `RopeModel` instance. -/
structure RopeModel where
  root : RopeNode
  cursorOffset : Nat
  lastChar : Nat
  undoStack : List RopeChange
  redoStack : List RopeChange
  historyPaused : Bool
deriving Repr, DecidableEq

namespace RopeModel

/-- The constructor `new RopeModel(initialText)`. -/
def ofText (s : Str) : RopeModel :=
  ⟨if s.isEmpty then .leaf emptyLeaf else fromText s, 0, 0, [], [], false⟩

/-- `getLength()`. -/
def getLength (st : RopeModel) : Nat := st.root.length

/-- `getLineCount()`. -/
def getLineCount (st : RopeModel) : Nat := max st.root.lines 1

/-- One step of the `getNewlineOffset` stack loop over a subtree: either
the newline is found (`Sum.inl`, with its absolute offset) or the whole
subtree is consumed and the remaining target index is returned
(`Sum.inr`). -/
def findNewline : RopeNode → Nat → Nat → Nat ⊕ Nat
  | .leaf l, offset, i =>
      match l.newlines[i]? with
      | some p => Sum.inl (offset + p)
      | none => Sum.inr (i - l.newlines.length)
  | .node a b _ _, offset, i =>
      match findNewline a offset i with
      | Sum.inl r => Sum.inl r
      | Sum.inr j => findNewline b (offset + a.length) j

/-- `getNewlineOffset(targetIndex)`: absolute offset of the
`targetIndex`-th newline of the document, if any. -/
def getNewlineOffset (st : RopeModel) (i : Nat) : Option Nat :=
  match findNewline st.root 0 i with
  | Sum.inl r => some r
  | Sum.inr _ => none

/-- `lineToOffset(line)`: start offset of a line. -/
def lineToOffset (st : RopeModel) (line : Nat) : Option Nat :=
  if st.getLineCount ≤ line then none
  else if line = 0 then some 0
  else
    match st.getNewlineOffset (line - 1) with
    | none => some st.getLength
    | some newlineOffset => some (newlineOffset + 1)

/-- `getLineEndOffset(line)`. -/
def getLineEndOffset (st : RopeModel) (line : Nat) : Nat :=
  if st.getLineCount ≤ line then st.getLength
  else if line = st.getLineCount - 1 then st.getLength
  else
    match st.getNewlineOffset line with
    | none => st.getLength
    | some newlineOffset => newlineOffset

/-- The recursion of `collectText`: pieces of the requested range, in
order (the source pushes onto an `output` array). -/
def collectText : RopeNode → Nat → Nat → Nat → List Str
  | .leaf l, offset, s, e =>
      let leafStart := s - offset
      let leafEnd := min l.length (e - offset)
      if leafStart < leafEnd then [(l.text.drop leafStart).take (leafEnd - leafStart)]
      else []
  | .node a b _ _, offset, s, e =>
      let leftEnd := offset + a.length
      (if s < leftEnd then collectText a offset s e else []) ++
        (if leftEnd < e then collectText b leftEnd s e else [])

/-- `sliceText(start, end)`. -/
def sliceText (st : RopeModel) (s e : Nat) : Str :=
  let clampedStart := min s st.getLength
  let clampedEnd := max clampedStart (min e st.getLength)
  if clampedEnd = clampedStart then []
  else (collectText st.root 0 clampedStart clampedEnd).flatten

/-- `getAll()` (the source's return type is `string | undefined`, but it
always returns the string `sliceText` produces). -/
def getAll (st : RopeModel) : Str := st.sliceText 0 st.getLength

/-- `getLine(line)`. -/
def getLine (st : RopeModel) (line : Int) : Option Str :=
  if line < 0 ∨ (st.getLineCount : Int) ≤ line then none
  else
    match st.lineToOffset line.toNat with
    | none => none
    | some s => some (st.sliceText s (st.getLineEndOffset line.toNat))

/-- `getChar(line, char)`: `getLine(line)?.[char]`. -/
def getChar (st : RopeModel) (line char : Int) : Option Char :=
  match st.getLine line with
  | none => none
  | some t => if char < 0 then none else t[char.toNat]?

/-- `getLineLength(line)` (`lineText ? lineText.length : 0`; the empty
string is falsy, and its length is 0 anyway). -/
def getLineLength (st : RopeModel) (line : Nat) : Nat :=
  match st.getLine line with
  | some t => if t.isEmpty then 0 else t.length
  | none => 0

/-- `clampCursor(position)`. -/
def clampCursor (st : RopeModel) (p : InputCursor) : CursorPosition :=
  let lineCount := st.getLineCount
  let line : Nat := (max 0 (min p.line ((lineCount : Int) - 1))).toNat
  let char : Nat := (max 0 (min p.char (st.getLineLength line : Int))).toNat
  ⟨line, char⟩

/-- `cursorToOffset(cursor)`. -/
def cursorToOffset (st : RopeModel) (c : InputCursor) : Nat :=
  let clamped := st.clampCursor c
  match st.lineToOffset clamped.line with
  | none => 0
  | some lineStart => min (lineStart + clamped.char) st.getLength

/-- The per-leaf scan of `lineInfoAtOffset` once the target falls inside or
at the end of the leaf: count newlines strictly before `relative`, tracking
the latest line start. -/
def leafScan : List Nat → Nat → Nat → Nat × Nat → Nat × Nat
  | [], _, _, acc => acc
  | p :: rest, relative, base, acc =>
      if p < relative then leafScan rest relative base (acc.1 + 1, base + p + 1)
      else acc

/-- The whole-leaf skip of `lineInfoAtOffset` when the target lies beyond
the leaf: account for all its newlines. -/
def skipLeaf (ns : List Nat) (base : Nat) (acc : Nat × Nat) : Nat × Nat :=
  match ns.getLast? with
  | none => acc
  | some last => (acc.1 + ns.length, base + last + 1)

/-- The `lineInfoAtOffset` stack loop over a subtree: `Sum.inr` means the
loop continues past the subtree with the accumulated state, `Sum.inl`
means it hit `break` and the state is final. -/
def lineInfoAux : RopeNode → Nat → Nat → Nat × Nat → (Nat × Nat) ⊕ (Nat × Nat)
  | .leaf l, base, target, acc =>
      if base + l.length < target then Sum.inr (skipLeaf l.newlines base acc)
      else Sum.inl (leafScan l.newlines (target - base) base acc)
  | .node a b _ _, base, target, acc =>
      match lineInfoAux a base target acc with
      | Sum.inl r => Sum.inl r
      | Sum.inr acc2 => lineInfoAux b (base + a.length) target acc2

/-- `lineInfoAtOffset(offset)`: `(line, lineStartOffset)` at a clamped
offset. -/
def lineInfoAtOffset (st : RopeModel) (offset : Nat) : Nat × Nat :=
  let target := min offset st.getLength
  match lineInfoAux st.root 0 target (0, 0) with
  | Sum.inl r => r
  | Sum.inr r => r

/-- `offsetToCursor(offset)`. -/
def offsetToCursor (st : RopeModel) (offset : Nat) : CursorPosition :=
  let clampedOffset := min offset st.getLength
  let info := st.lineInfoAtOffset clampedOffset
  ⟨info.1, clampedOffset - info.2⟩

/-- `getCursor()`. -/
def getCursor (st : RopeModel) : CursorPosition := st.offsetToCursor st.cursorOffset

/-- `setCursor(position)`. -/
def setCursor (st : RopeModel) (p : InputCursor) : RopeModel × List Event :=
  let normalized := st.clampCursor p
  ({ st with cursorOffset := st.cursorToOffset normalized.toInput,
             lastChar := normalized.char },
   [Event.cursorMoved normalized])

/-- `recordChange(change)`: push onto the undo stack, clear the redo
stack. -/
def recordChange (st : RopeModel) (change : RopeChange) : RopeModel :=
  { st with undoStack := change :: st.undoStack, redoStack := [] }

/-- `applyInsert(offset, text, recordHistory, cursorBefore)`. -/
def applyInsert (st : RopeModel) (offset : Nat) (text : Str)
    (recordHistory : Bool) (cursorBefore : CursorPosition) : RopeModel × List Event :=
  if text.length = 0 then (st, [])
  else
    let middle := fromText text
    let p := split st.root offset
    let root2 := rebalance (concat (some (concat p.1 (some middle))) p.2)
    let st1 := { st with root := root2, cursorOffset := offset + text.length }
    let cursor := st1.getCursor
    let st2 := { st1 with lastChar := cursor.char }
    let st3 :=
      if recordHistory && !st2.historyPaused then
        st2.recordChange
          ⟨.insert, offset, text, cursorBefore, st2.getCursor,
           st2.cursorToOffset cursorBefore.toInput, st2.cursorOffset⟩
      else st2
    (st3, [Event.cursorMoved cursor, Event.contentChanged])

/-- `applyDelete(offset, text, recordHistory, cursorBefore)`. -/
def applyDelete (st : RopeModel) (offset : Nat) (text : Str)
    (recordHistory : Bool) (cursorBefore : CursorPosition) : RopeModel × List Event :=
  if text.length = 0 then (st, [])
  else
    let p := split st.root offset
    let q := splitOption p.2 text.length
    let root2 := rebalance (concat p.1 q.2)
    let st1 := { st with root := root2, cursorOffset := offset }
    let cursor := st1.getCursor
    let st2 := { st1 with lastChar := cursor.char }
    let st3 :=
      if recordHistory && !st2.historyPaused then
        st2.recordChange
          ⟨.delete, offset, text, cursorBefore, st2.getCursor,
           st2.cursorToOffset cursorBefore.toInput, st2.cursorOffset⟩
      else st2
    (st3, [Event.cursorMoved cursor, Event.contentChanged])

/-- Public `insert(line, index, text)`. -/
def insert (st : RopeModel) (line index : Int) (text : Str) : RopeModel × List Event :=
  let cursorBefore := st.getCursor
  let offset := st.cursorToOffset ⟨line, index⟩
  st.applyInsert offset text true cursorBefore

/-- Public `delete(line, index, count)`. -/
def delete (st : RopeModel) (line index count : Int) : RopeModel × List Event :=
  if count ≤ 0 then (st, [])
  else
    let cursorBefore := st.getCursor
    let endOffset := st.cursorToOffset ⟨line, index⟩
    let startOffset := (max 0 ((endOffset : Int) - count)).toNat
    let removed := st.sliceText startOffset endOffset
    if removed.length = 0 then (st, [])
    else st.applyDelete startOffset removed true cursorBefore

/-- `setAll(content)`. -/
def setAll (st : RopeModel) (content : Str) : RopeModel × List Event :=
  let st2 : RopeModel :=
    { st with root := if content.isEmpty then .leaf emptyLeaf else fromText content,
              cursorOffset := 0, lastChar := 0, undoStack := [], redoStack := [] }
  (st2, [Event.cursorMoved st2.getCursor, Event.contentChanged])

/-- `insertChar(char)`. -/
def insertChar (st : RopeModel) (c : Str) : RopeModel × List Event :=
  let cursor := st.getCursor
  st.insert cursor.line cursor.char c

/-- `deleteChar()`. -/
def deleteChar (st : RopeModel) : RopeModel × List Event :=
  let cursor := st.getCursor
  if 0 < cursor.char ∨ 0 < cursor.line then st.delete cursor.line cursor.char 1
  else (st, [])

/-- `moveCursorLeft()`. -/
def moveCursorLeft (st : RopeModel) : RopeModel × List Event :=
  if 0 < st.cursorOffset then
    let st1 := { st with cursorOffset := st.cursorOffset - 1 }
    let cursor := st1.getCursor
    ({ st1 with lastChar := cursor.char }, [Event.cursorMoved cursor])
  else (st, [])

/-- `moveCursorRight()`. -/
def moveCursorRight (st : RopeModel) : RopeModel × List Event :=
  if st.cursorOffset < st.getLength then
    let st1 := { st with cursorOffset := st.cursorOffset + 1 }
    let cursor := st1.getCursor
    ({ st1 with lastChar := cursor.char }, [Event.cursorMoved cursor])
  else (st, [])

/-- `moveCursorUp()`. -/
def moveCursorUp (st : RopeModel) : RopeModel × List Event :=
  let cursor := st.getCursor
  if cursor.line = 0 then (st, [])
  else
    let targetLine := cursor.line - 1
    let intendedChar := st.lastChar
    let targetChar := min intendedChar (st.getLineLength targetLine)
    let r := st.setCursor ⟨(targetLine : Int), (targetChar : Int)⟩
    ({ r.1 with lastChar := intendedChar }, r.2)

/-- `moveCursorDown()`. -/
def moveCursorDown (st : RopeModel) : RopeModel × List Event :=
  let cursor := st.getCursor
  let totalLines := st.getLineCount
  if totalLines - 1 ≤ cursor.line then (st, [])
  else
    let targetLine := cursor.line + 1
    let intendedChar := st.lastChar
    let targetChar := min intendedChar (st.getLineLength targetLine)
    let r := st.setCursor ⟨(targetLine : Int), (targetChar : Int)⟩
    ({ r.1 with lastChar := intendedChar }, r.2)

/-- `undo()`. -/
def undo (st : RopeModel) : RopeModel × List Event :=
  match st.undoStack with
  | [] => (st, [])
  | change :: rest =>
    let st0 := { st with undoStack := rest, historyPaused := true }
    match change.kind with
    | .insert =>
        let r := st0.applyDelete change.offset change.text false change.cursorBefore
        let st1 := { r.1 with cursorOffset := change.cursorOffsetBefore }
        let cursor := st1.offsetToCursor st1.cursorOffset
        ({ st1 with historyPaused := false, redoStack := change :: st1.redoStack },
         r.2 ++ [Event.cursorMoved cursor])
    | .delete =>
        let r := st0.applyInsert change.offset change.text false change.cursorBefore
        let st1 := { r.1 with cursorOffset := change.cursorOffsetBefore }
        let cursor := st1.offsetToCursor st1.cursorOffset
        ({ st1 with historyPaused := false, redoStack := change :: st1.redoStack },
         r.2 ++ [Event.cursorMoved cursor])

/-- `redo()`. -/
def redo (st : RopeModel) : RopeModel × List Event :=
  match st.redoStack with
  | [] => (st, [])
  | change :: rest =>
    let st0 := { st with redoStack := rest, historyPaused := true }
    match change.kind with
    | .insert =>
        let r := st0.applyInsert change.offset change.text false change.cursorAfter
        let st1 := { r.1 with cursorOffset := change.cursorOffsetAfter }
        let cursor := st1.offsetToCursor st1.cursorOffset
        ({ st1 with historyPaused := false, undoStack := change :: st1.undoStack },
         r.2 ++ [Event.cursorMoved cursor])
    | .delete =>
        let r := st0.applyDelete change.offset change.text false change.cursorAfter
        let st1 := { r.1 with cursorOffset := change.cursorOffsetAfter }
        let cursor := st1.offsetToCursor st1.cursorOffset
        ({ st1 with historyPaused := false, undoStack := change :: st1.undoStack },
         r.2 ++ [Event.cursorMoved cursor])

/-- `canUndo()`. -/
def canUndo (st : RopeModel) : Bool := !st.undoStack.isEmpty

/-- `canRedo()`. -/
def canRedo (st : RopeModel) : Bool := !st.redoStack.isEmpty

/-- `getTextInRange(start, end)`. -/
def getTextInRange (st : RopeModel) (s e : InputCursor) : Str :=
  let startOffset := st.cursorToOffset (st.clampCursor s).toInput
  let endOffset := st.cursorToOffset (st.clampCursor e).toInput
  if endOffset ≤ startOffset then [] else st.sliceText startOffset endOffset

end RopeModel

/-- The `walkChunks` traversal: the sequence of
`callback(text, startOffset, endOffset)` invocations, in order. -/
def walkChunks : RopeNode → Nat → List (Str × Nat × Nat)
  | .leaf l, offset => [(l.text, offset, offset + l.length)]
  | .node a b _ _, offset => walkChunks a offset ++ walkChunks b (offset + a.length)

/-- `forEachChunk(callback)`: the invocations made, as a list. -/
def RopeModel.forEachChunk (st : RopeModel) : List (Str × Nat × Nat) :=
  walkChunks st.root 0

/-! ## String-level specification helpers -/

/-- `t.slice(a, b)` for clamped non-negative indices: the characters of `t`
in positions `[a, b)`. -/
def sliceSpan (t : Str) (a b : Nat) : Str := (t.drop a).take (b - a)

theorem sliceSpan_length_of_le {t : Str} {a b : Nat} (hb : b ≤ t.length) :
    (sliceSpan t a b).length = b - a := by
  simp only [sliceSpan, List.length_take, List.length_drop]
  omega

theorem sliceSpan_append (x y : Str) (a b : Nat) :
    sliceSpan (x ++ y) a b =
      sliceSpan x a b ++ sliceSpan y (a - x.length) (b - x.length) := by
  simp only [sliceSpan, List.drop_append_eq_append_drop, List.take_append_eq_append_take]
  have h : b - a - (x.drop a).length = b - x.length - (a - x.length) := by
    simp only [List.length_drop]; omega
  rw [h]

theorem sliceSpan_zero_length (t : Str) (a : Nat) : sliceSpan t a a = [] := by
  simp [sliceSpan]

theorem sliceSpan_full (t : Str) : sliceSpan t 0 t.length = t := by
  simp [sliceSpan]

theorem sliceSpan_drop_ge {t : Str} {a b : Nat} (h : t.length ≤ a) :
    sliceSpan t a b = [] := by
  simp [sliceSpan, List.drop_of_length_le h]

theorem sliceSpan_of_le {t : Str} {a b : Nat} (h : b ≤ a) : sliceSpan t a b = [] := by
  simp [sliceSpan, Nat.sub_eq_zero_of_le h]

theorem take_sliceSpan_drop {t : Str} {a b : Nat} (hab : a ≤ b) :
    t.take a ++ sliceSpan t a b ++ t.drop b = t := by
  have h1 : t.drop b = (t.drop a).drop (b - a) := by
    rw [List.drop_drop]; congr 1; omega
  rw [sliceSpan, h1, List.append_assoc, List.take_append_drop, List.take_append_drop]

/-! ## Newline-position lemmas -/

theorem newlinePositions_append (s t : Str) :
    newlinePositions (s ++ t) =
      newlinePositions s ++ (newlinePositions t).map (· + s.length) := by
  induction s with
  | nil => simp [newlinePositions]
  | cons c s ih =>
      simp only [List.cons_append, newlinePositions, List.append_eq, ih, List.map_append,
        List.map_map, List.length_cons, List.append_assoc]
      have h : ((fun x : Nat => x + 1) ∘ fun x : Nat => x + s.length)
          = fun x : Nat => x + (s.length + 1) := by
        funext x; simp only [Function.comp_apply]; omega
      rw [h]

theorem newlinePositions_lt_length {t : Str} {p : Nat} (h : p ∈ newlinePositions t) :
    p < t.length := by
  induction t generalizing p with
  | nil => simp [newlinePositions] at h
  | cons c rest ih =>
      simp only [newlinePositions, List.mem_append, List.mem_map] at h
      simp only [List.length_cons]
      rcases h with h | ⟨q, hq, rfl⟩
      · rcases Decidable.em (c = '\n') with hc | hc <;> simp [hc] at h
        omega
      · have := ih hq
        omega

theorem newlinePositions_sorted (t : Str) :
    List.Pairwise (· < ·) (newlinePositions t) := by
  induction t with
  | nil => simp [newlinePositions]
  | cons c rest ih =>
      simp only [newlinePositions]
      rw [List.pairwise_append]
      refine ⟨?_, ?_, ?_⟩
      · rcases Decidable.em (c = '\n') with hc | hc <;> simp [hc]
      · rw [List.pairwise_map]
        exact ih.imp (fun h => by omega)
      · intro a ha b hb
        rcases Decidable.em (c = '\n') with hc | hc <;> simp [hc] at ha
        subst ha
        simp only [List.mem_map] at hb
        rcases hb with ⟨q, _, rfl⟩
        omega

theorem mem_newlinePositions {t : Str} {p : Nat} :
    p ∈ newlinePositions t ↔ t[p]? = some '\n' := by
  induction t generalizing p with
  | nil => simp [newlinePositions]
  | cons c rest ih =>
      cases p with
      | zero =>
          rcases Decidable.em (c = '\n') with hc | hc <;>
            simp [newlinePositions, hc, List.mem_map]
      | succ q =>
          rcases Decidable.em (c = '\n') with hc | hc <;>
            simp [newlinePositions, hc, List.mem_map, ih]

/-! ## Tree metadata and text lemmas -/

/-- Text of a nullable node (`null` reads as the empty string). -/
def optText : Option RopeNode → Str
  | none => []
  | some n => toText n

/-- Invariant for a nullable node. -/
def goodOpt : Option RopeNode → Bool
  | none => true
  | some n => goodNode n

@[simp] theorem toText_leaf (l : RopeLeaf) : toText (.leaf l) = l.text := rfl

@[simp] theorem toText_node (a b : RopeNode) (len ln : Nat) :
    toText (.node a b len ln) = toText a ++ toText b := rfl

@[simp] theorem optText_none : optText none = [] := rfl

@[simp] theorem optText_some (n : RopeNode) : optText (some n) = toText n := rfl

@[simp] theorem goodOpt_none : goodOpt none = true := rfl

@[simp] theorem goodOpt_some (n : RopeNode) : goodOpt (some n) = goodNode n := rfl

@[simp] theorem goodNode_leaf (l : RopeLeaf) : goodNode (.leaf l) = goodLeaf l := rfl

@[simp] theorem length_leaf (l : RopeLeaf) : RopeNode.length (.leaf l) = l.length := rfl

@[simp] theorem length_node (a b : RopeNode) (len ln : Nat) :
    RopeNode.length (.node a b len ln) = len := rfl

@[simp] theorem lines_leaf (l : RopeLeaf) : RopeNode.lines (.leaf l) = l.lines := rfl

@[simp] theorem lines_node (a b : RopeNode) (len ln : Nat) :
    RopeNode.lines (.node a b len ln) = ln := rfl

theorem goodLeaf_iff {l : RopeLeaf} :
    goodLeaf l = true ↔
      l.length = l.text.length ∧ l.newlines = newlinePositions l.text ∧
        l.lines = (newlinePositions l.text).length + 1 := by
  simp [goodLeaf, and_assoc]

theorem goodNode_node_iff {a b : RopeNode} {len ln : Nat} :
    goodNode (.node a b len ln) = true ↔
      goodNode a = true ∧ goodNode b = true ∧ len = a.length + b.length ∧
        ln = a.lines + b.lines - 1 := by
  simp [goodNode, and_assoc]

theorem goodLeaf_createLeaf (t : Str) : goodLeaf (createLeaf t) = true := by
  simp [goodLeaf, createLeaf]

theorem goodLeaf_emptyLeaf : goodLeaf emptyLeaf = true := by
  simp [goodLeaf, emptyLeaf, newlinePositions]

theorem length_eq_of_good : ∀ {n : RopeNode}, goodNode n = true →
    n.length = (toText n).length := by
  intro n
  induction n with
  | leaf l =>
      intro h
      simpa using (goodLeaf_iff.mp h).1
  | node a b len ln iha ihb =>
      intro h
      rcases goodNode_node_iff.mp h with ⟨ha, hb, hlen, _⟩
      simp [hlen, iha ha, ihb hb]

theorem lines_eq_of_good : ∀ {n : RopeNode}, goodNode n = true →
    n.lines = (newlinePositions (toText n)).length + 1 := by
  intro n
  induction n with
  | leaf l =>
      intro h
      simpa using (goodLeaf_iff.mp h).2.2
  | node a b len ln iha ihb =>
      intro h
      rcases goodNode_node_iff.mp h with ⟨ha, hb, _, hln⟩
      have hlen := length_eq_of_good ha
      simp only [lines_node, toText_node, newlinePositions_append, List.length_append,
        List.length_map]
      rw [hln, iha ha, ihb hb]
      omega

theorem toText_concat (x y : Option RopeNode) :
    toText (concat x y) = optText x ++ optText y := by
  cases x <;> cases y <;> simp [concat, emptyLeaf]

theorem goodNode_concat {x y : Option RopeNode} (hx : goodOpt x = true)
    (hy : goodOpt y = true) : goodNode (concat x y) = true := by
  cases x <;> cases y <;>
    simp_all [concat, goodNode_node_iff, goodLeaf_emptyLeaf]

@[simp] theorem createLeaf_text (t : Str) : (createLeaf t).text = t := rfl

theorem split_spec : ∀ (n : RopeNode) (o : Nat), goodNode n = true →
    optText (split n o).1 = (toText n).take o ∧
    optText (split n o).2 = (toText n).drop o ∧
    goodOpt (split n o).1 = true ∧ goodOpt (split n o).2 = true := by
  intro n
  induction n with
  | leaf l =>
      intro o h
      have h1 : l.length = l.text.length := (goodLeaf_iff.mp h).1
      rw [split]
      by_cases h0 : o = 0
      · subst h0; simp [h]
      · by_cases hlen : l.length ≤ o
        · have hle : l.text.length ≤ o := by omega
          simp [h0, hlen, List.take_of_length_le hle, List.drop_of_length_le hle, h]
        · simp [h0, hlen, goodLeaf_createLeaf]
  | node a b len ln iha ihb =>
      intro o h
      rcases goodNode_node_iff.mp h with ⟨ha, hb, hlen0, _⟩
      have hta : a.length = (toText a).length := length_eq_of_good ha
      have htb : b.length = (toText b).length := length_eq_of_good hb
      rw [split]
      simp only [length_node]
      by_cases h0 : o = 0
      · subst h0; simp [h]
      · by_cases hbig : len ≤ o
        · have hle : (toText a ++ toText b).length ≤ o := by
            simp only [List.length_append]; omega
          simp [h0, hbig, List.take_of_length_le hle, List.drop_of_length_le hle, h]
        · by_cases hlt : o < a.length
          · rcases iha o ha with ⟨ia1, ia2, ia3, ia4⟩
            have hsub : o - (toText a).length = 0 := by omega
            simp only [if_neg h0, if_neg hbig, if_pos hlt, toText_node]
            refine ⟨?_, ?_, ia3, goodNode_concat ia4 (by simpa using hb)⟩
            · simp [ia1, List.take_append_eq_append_take, hsub]
            · simp [toText_concat, ia2, List.drop_append_eq_append_drop, hsub]
          · rcases ihb (o - a.length) hb with ⟨ib1, ib2, ib3, ib4⟩
            have hoa : (toText a).length ≤ o := by omega
            simp only [if_neg h0, if_neg hbig, if_neg hlt, toText_node]
            refine ⟨?_, ?_, goodNode_concat (by simpa using ha) ib3, ib4⟩
            · simp [toText_concat, ib1, List.take_append_eq_append_take,
                List.take_of_length_le hoa, ← hta]
            · simp [ib2, List.drop_append_eq_append_drop,
                List.drop_of_length_le hoa, ← hta]

theorem chunkAux_spec : ∀ (fuel : Nat) (t : Str), t.length ≤ fuel →
    ((chunkAux fuel t).map RopeLeaf.text).flatten = t ∧
    ∀ l ∈ chunkAux fuel t, goodLeaf l = true := by
  intro fuel
  induction fuel with
  | zero =>
      intro t ht
      have ht0 : t = [] := List.eq_nil_of_length_eq_zero (by omega)
      subst ht0
      simp [chunkAux]
  | succ fuel ih =>
      intro t ht
      cases t with
      | nil => simp [chunkAux]
      | cons c cs =>
          have hmax : 0 < MAX_LEAF_SIZE := by norm_num [MAX_LEAF_SIZE]
          have hlen : (List.drop MAX_LEAF_SIZE (c :: cs)).length ≤ fuel := by
            simp only [List.length_drop, List.length_cons]
            simp only [List.length_cons] at ht
            omega
          rcases ih _ hlen with ⟨h1, h2⟩
          constructor
          · simp only [chunkAux, List.map_cons, List.flatten_cons, createLeaf_text, h1]
            exact List.take_append_drop _ _
          · intro l hl
            simp only [chunkAux, List.mem_cons] at hl
            rcases hl with rfl | hl
            · exact goodLeaf_createLeaf _
            · exact h2 l hl

theorem buildBalancedAux_cons_cons (fuel : Nat) (x y : RopeLeaf) (ys : List RopeLeaf) :
    buildBalancedAux (fuel + 1) (x :: y :: ys) =
      concat
        (some (buildBalancedAux fuel ((x :: y :: ys).take ((x :: y :: ys).length / 2))))
        (some (buildBalancedAux fuel ((x :: y :: ys).drop ((x :: y :: ys).length / 2)))) := rfl

theorem buildBalancedAux_spec : ∀ (fuel : Nat) (ls : List RopeLeaf), ls.length ≤ fuel →
    (∀ l ∈ ls, goodLeaf l = true) →
    goodNode (buildBalancedAux fuel ls) = true ∧
    toText (buildBalancedAux fuel ls) = (ls.map RopeLeaf.text).flatten := by
  intro fuel
  induction fuel with
  | zero =>
      intro ls h _
      have h0 : ls = [] := List.eq_nil_of_length_eq_zero (by omega)
      subst h0
      exact ⟨goodLeaf_emptyLeaf, rfl⟩
  | succ fuel ih =>
      intro ls h hg
      cases ls with
      | nil => exact ⟨goodLeaf_emptyLeaf, rfl⟩
      | cons x xs =>
          cases xs with
          | nil =>
              simp only [buildBalancedAux, goodNode_leaf, toText_leaf, List.map_cons,
                List.map_nil, List.flatten_cons, List.flatten_nil, List.append_nil]
              exact ⟨hg x (by simp), trivial⟩
          | cons y ys =>
              simp only [List.length_cons] at h
              have h1 : ((x :: y :: ys).take ((x :: y :: ys).length / 2)).length ≤ fuel := by
                simp only [List.length_take, List.length_cons]
                omega
              have h2 : ((x :: y :: ys).drop ((x :: y :: ys).length / 2)).length ≤ fuel := by
                simp only [List.length_drop, List.length_cons]
                omega
              rcases ih _ h1 (fun l hl => hg l (List.take_subset _ _ hl)) with ⟨g1, t1⟩
              rcases ih _ h2 (fun l hl => hg l (List.drop_subset _ _ hl)) with ⟨g2, t2⟩
              rw [buildBalancedAux_cons_cons]
              constructor
              · exact goodNode_concat (by simpa using g1) (by simpa using g2)
              · rw [toText_concat, optText_some, optText_some, t1, t2,
                  ← List.flatten_append, ← List.map_append, List.take_append_drop]

theorem fromText_spec (t : Str) :
    goodNode (fromText t) = true ∧ toText (fromText t) = t := by
  rw [fromText]
  by_cases h : t.length ≤ MAX_LEAF_SIZE
  · simp [h, goodLeaf_createLeaf]
  · simp only [if_neg h]
    rcases chunkAux_spec t.length t le_rfl with ⟨h1, h2⟩
    rcases buildBalancedAux_spec (chunkLeaves t).length (chunkLeaves t) le_rfl h2
      with ⟨g, ht⟩
    exact ⟨g, ht.trans h1⟩

theorem leavesOf_spec : ∀ {n : RopeNode}, goodNode n = true →
    ((leavesOf n).map RopeLeaf.text).flatten = toText n ∧
    ∀ l ∈ leavesOf n, goodLeaf l = true := by
  intro n
  induction n with
  | leaf l =>
      intro h
      by_cases hz : l.length = 0
      · have htext : l.text = [] := by
          have := (goodLeaf_iff.mp h).1
          exact List.eq_nil_of_length_eq_zero (by omega)
        simp [leavesOf, hz, htext]
      · refine ⟨by simp [leavesOf, hz], ?_⟩
        intro m hm
        simp only [leavesOf, if_neg hz, List.mem_singleton] at hm
        subst hm
        simpa using h
  | node a b len ln iha ihb =>
      intro h
      rcases goodNode_node_iff.mp h with ⟨ha, hb, _, _⟩
      rcases iha ha with ⟨ta, ga⟩
      rcases ihb hb with ⟨tb, gb⟩
      refine ⟨?_, ?_⟩
      · simp only [leavesOf, List.map_append, List.flatten_append, ta, tb, toText_node]
      · intro m hm
        simp only [leavesOf, List.mem_append] at hm
        rcases hm with hm | hm
        · exact ga m hm
        · exact gb m hm

theorem collectLeaves_spec : ∀ {n : RopeNode}, goodNode n = true →
    ((collectLeaves n).map RopeLeaf.text).flatten = toText n ∧
    ∀ l ∈ collectLeaves n, goodLeaf l = true := by
  intro n
  induction n with
  | leaf l =>
      intro h
      by_cases hz : l.length = 0
      · have htext : l.text = [] := by
          have := (goodLeaf_iff.mp h).1
          exact List.eq_nil_of_length_eq_zero (by omega)
        simp [collectLeaves, hz, htext]
      · by_cases hover : MAX_LEAF_SIZE * 2 < l.length
        · rcases fromText_spec l.text with ⟨gf, tf⟩
          rcases leavesOf_spec gf with ⟨t1, g1⟩
          refine ⟨?_, ?_⟩
          · simp only [collectLeaves, if_neg hz, if_pos hover, t1, tf, toText_leaf]
          · intro m hm
            simp only [collectLeaves, if_neg hz, if_pos hover] at hm
            exact g1 m hm
        · refine ⟨by simp [collectLeaves, hz, hover], ?_⟩
          intro m hm
          simp only [collectLeaves, if_neg hz, if_neg hover, List.mem_singleton] at hm
          subst hm
          simpa using h
  | node a b len ln iha ihb =>
      intro h
      rcases goodNode_node_iff.mp h with ⟨ha, hb, _, _⟩
      rcases iha ha with ⟨ta, ga⟩
      rcases ihb hb with ⟨tb, gb⟩
      refine ⟨?_, ?_⟩
      · simp only [collectLeaves, List.map_append, List.flatten_append, ta, tb, toText_node]
      · intro m hm
        simp only [collectLeaves, List.mem_append] at hm
        rcases hm with hm | hm
        · exact ga m hm
        · exact gb m hm

theorem rebalance_spec {n : RopeNode} (h : goodNode n = true) :
    goodNode (rebalance n) = true ∧ toText (rebalance n) = toText n := by
  rcases collectLeaves_spec h with ⟨h1, h2⟩
  rcases buildBalancedAux_spec (collectLeaves n).length (collectLeaves n) le_rfl h2
    with ⟨g, ht⟩
  exact ⟨g, ht.trans h1⟩

/-! ## Read-path lemmas -/

namespace RopeModel

theorem getLength_eq {st : RopeModel} (h : goodNode st.root = true) :
    st.getLength = (toText st.root).length := length_eq_of_good h

theorem getLineCount_eq {st : RopeModel} (h : goodNode st.root = true) :
    st.getLineCount = (newlinePositions (toText st.root)).length + 1 := by
  rw [getLineCount, lines_eq_of_good h]
  omega

theorem collectText_spec : ∀ (n : RopeNode), goodNode n = true → ∀ (off s e : Nat),
    (collectText n off s e).flatten = sliceSpan (toText n) (s - off) (e - off) := by
  intro n
  induction n with
  | leaf l =>
      intro h off s e
      have h1 : l.length = l.text.length := (goodLeaf_iff.mp h).1
      simp only [collectText, toText_leaf, h1]
      by_cases hc : s - off < min l.text.length (e - off)
      · rw [if_pos hc]
        simp only [List.flatten_cons, List.flatten_nil, List.append_nil, sliceSpan]
        rcases le_or_lt (e - off) l.text.length with hb | hb
        · rw [min_eq_right hb] at hc ⊢
        · rw [min_eq_left hb.le] at hc ⊢
          rw [List.take_of_length_le (by simp [List.length_drop]),
            List.take_of_length_le (by simp [List.length_drop]; omega)]
      · rw [if_neg hc]
        rcases le_or_lt (min l.text.length (e - off)) (s - off) with hm | hm
        · rcases le_or_lt l.text.length (e - off) with h2 | h2
          · have : l.text.length ≤ s - off := by omega
            simp [sliceSpan_drop_ge this]
          · have : e - off ≤ s - off := by omega
            simp [sliceSpan_of_le this]
        · omega
  | node a b len ln iha ihb =>
      intro h off s e
      rcases goodNode_node_iff.mp h with ⟨ha, hb, _, _⟩
      have hta : a.length = (toText a).length := length_eq_of_good ha
      simp only [collectText, toText_node, List.flatten_append, sliceSpan_append]
      congr 1
      · by_cases h1 : s < off + a.length
        · rw [if_pos h1, iha ha]
        · rw [if_neg h1]
          have : (toText a).length ≤ s - off := by omega
          simp [sliceSpan_drop_ge this]
      · by_cases h2 : off + a.length < e
        · rw [if_pos h2, ihb hb]
          have e1 : s - (off + a.length) = s - off - (toText a).length := by omega
          have e2 : e - (off + a.length) = e - off - (toText a).length := by omega
          rw [e1, e2]
        · rw [if_neg h2]
          have : e - off - (toText a).length = 0 := by omega
          rw [this]
          simp [sliceSpan_of_le (Nat.zero_le _)]

theorem sliceText_spec {st : RopeModel} (h : goodNode st.root = true) (s e : Nat) :
    st.sliceText s e =
      sliceSpan (toText st.root) (min s (toText st.root).length)
        (max (min s (toText st.root).length) (min e (toText st.root).length)) := by
  simp only [sliceText, getLength_eq h]
  by_cases hc :
      max (min s (toText st.root).length) (min e (toText st.root).length) =
        min s (toText st.root).length
  · rw [if_pos hc, hc, sliceSpan_zero_length]
  · rw [if_neg hc, collectText_spec _ h]
    simp

theorem sliceText_eq_sliceSpan {st : RopeModel} (h : goodNode st.root = true) {s e : Nat}
    (hs : s ≤ e) (he : e ≤ (toText st.root).length) :
    st.sliceText s e = sliceSpan (toText st.root) s e := by
  rw [sliceText_spec h]
  have h1 : min s (toText st.root).length = s := by omega
  rw [h1]
  have h2 : max s (min e (toText st.root).length) = e := by omega
  rw [h2]

theorem getAll_eq {st : RopeModel} (h : goodNode st.root = true) :
    st.getAll = toText st.root := by
  rw [getAll, getLength_eq h,
    sliceText_eq_sliceSpan h (Nat.zero_le _) le_rfl, sliceSpan_full]

theorem findNewline_spec : ∀ (n : RopeNode), goodNode n = true → ∀ (off i : Nat),
    findNewline n off i =
      (match (newlinePositions (toText n))[i]? with
       | some p => Sum.inl (off + p)
       | none => Sum.inr (i - (newlinePositions (toText n)).length)) := by
  intro n
  induction n with
  | leaf l =>
      intro h off i
      have h2 : l.newlines = newlinePositions l.text := (goodLeaf_iff.mp h).2.1
      simp [findNewline, h2]
  | node a b len ln iha ihb =>
      intro h off i
      rcases goodNode_node_iff.mp h with ⟨ha, hb, _, _⟩
      have hta : a.length = (toText a).length := length_eq_of_good ha
      simp only [findNewline, iha ha, toText_node, newlinePositions_append]
      cases hA : (newlinePositions (toText a))[i]? with
      | some p =>
          have hi : i < (newlinePositions (toText a)).length := by
            by_contra hcon
            rw [List.getElem?_eq_none (by omega)] at hA
            exact Option.noConfusion hA
          rw [List.getElem?_append, if_pos hi, hA]
      | none =>
          have hi : (newlinePositions (toText a)).length ≤ i := by
            by_contra hcon
            push_neg at hcon
            rw [List.getElem?_eq_getElem hcon] at hA
            exact Option.noConfusion hA
          rw [List.getElem?_append_right hi, List.getElem?_map]
          dsimp only
          rw [ihb hb]
          cases hB : (newlinePositions (toText b))[i - (newlinePositions (toText a)).length]? with
          | some q =>
              simp only [hB, Option.map_some]
              rw [hta]
              congr 1
              simp only []
              omega
          | none =>
              simp only [hB, Option.map_none, List.length_append, List.length_map]
              congr 1
              omega

theorem getNewlineOffset_spec {st : RopeModel} (h : goodNode st.root = true) (i : Nat) :
    st.getNewlineOffset i = (newlinePositions (toText st.root))[i]? := by
  rw [getNewlineOffset, findNewline_spec _ h]
  cases hE : (newlinePositions (toText st.root))[i]? <;> simp [hE]

/-! ## The `lineInfoAtOffset` traversal, characterised over the document -/

/-- Specification-side scan: process absolute newline positions in order,
counting those below `target` and tracking the latest line start, stopping
at the first position at or past `target`.  This is what the
`lineInfoAtOffset` loop computes. -/
def scanNewlines : List Nat → Nat → Nat × Nat → Nat × Nat
  | [], _, acc => acc
  | p :: rest, target, acc =>
      if p < target then scanNewlines rest target (acc.1 + 1, p + 1) else acc

theorem scanNewlines_eq_takeWhile :
    ∀ (ns : List Nat) (target : Nat) (acc : Nat × Nat),
    scanNewlines ns target acc =
      (acc.1 + (ns.takeWhile (· < target)).length,
       match (ns.takeWhile (· < target)).getLast? with
       | none => acc.2
       | some p => p + 1) := by
  intro ns
  induction ns with
  | nil => intro target acc; simp [scanNewlines, List.takeWhile_nil]
  | cons p rest ih =>
      intro target acc
      by_cases hp : p < target
      · rw [scanNewlines, if_pos hp, ih, List.takeWhile_cons, if_pos (by simpa using hp)]
        cases htw : (rest.takeWhile (· < target)).getLast? with
        | none =>
            have hnil : rest.takeWhile (· < target) = [] :=
              List.getLast?_eq_none_iff.mp htw
            simp [hnil]
        | some q =>
            have hcons : (p :: rest.takeWhile (· < target)).getLast? = some q := by
              rw [← List.singleton_append, List.getLast?_append, htw]
              rfl
            rw [hcons]
            simp only [Prod.mk.injEq, List.length_cons]
            exact ⟨by omega, trivial⟩
      · rw [scanNewlines, if_neg hp, List.takeWhile_cons, if_neg (by simpa using hp)]
        simp

theorem leafScan_eq_scanNewlines :
    ∀ (ns : List Nat) (base target : Nat) (acc : Nat × Nat),
    leafScan ns (target - base) base acc =
      scanNewlines (ns.map (· + base)) target acc := by
  intro ns
  induction ns with
  | nil => intro base target acc; simp [leafScan, scanNewlines]
  | cons p rest ih =>
      intro base target acc
      simp only [List.map_cons, leafScan, scanNewlines]
      by_cases hp : p < target - base
      · rw [if_pos hp, if_pos (by omega)]
        have h1 : base + p + 1 = p + base + 1 := by omega
        rw [h1, ih]
      · rw [if_neg hp, if_neg (by omega)]

theorem takeWhile_eq_self_of_all {α : Type} {P : α → Bool} {l : List α}
    (h : ∀ x ∈ l, P x = true) : l.takeWhile P = l :=
  List.takeWhile_eq_self_iff.mpr h

theorem skipLeaf_eq_scanNewlines (ns : List Nat) (base target : Nat) (acc : Nat × Nat)
    (hall : ∀ p ∈ ns, p + base < target) :
    skipLeaf ns base acc = scanNewlines (ns.map (· + base)) target acc := by
  rw [scanNewlines_eq_takeWhile]
  have hTW : (ns.map (· + base)).takeWhile (· < target) = ns.map (· + base) := by
    apply takeWhile_eq_self_of_all
    intro x hx
    simp only [List.mem_map] at hx
    rcases hx with ⟨p, hp, rfl⟩
    simpa using hall p hp
  rw [hTW, List.getLast?_map, List.length_map, skipLeaf]
  cases hL : ns.getLast? with
  | none =>
      have hnil : ns = [] := List.getLast?_eq_none_iff.mp hL
      subst hnil
      simp
  | some last =>
      show (acc.1 + ns.length, base + last + 1) = (acc.1 + ns.length, last + base + 1)
      simp only [Prod.mk.injEq]
      exact ⟨trivial, by omega⟩

theorem scanNewlines_append_of_all_lt :
    ∀ (A : List Nat) {B : List Nat} {target : Nat} (acc : Nat × Nat),
    (∀ p ∈ A, p < target) →
    scanNewlines (A ++ B) target acc = scanNewlines B target (scanNewlines A target acc) := by
  intro A
  induction A with
  | nil => intro B target acc _; simp [scanNewlines]
  | cons p rest ih =>
      intro B target acc h
      have hp : p < target := h p (by simp)
      simp only [List.cons_append, scanNewlines, if_pos hp]
      exact ih _ (fun q hq => h q (by simp [hq]))

theorem scanNewlines_eq_of_ge {B : List Nat} {target : Nat} (acc : Nat × Nat)
    (h : ∀ q ∈ B, target ≤ q) : scanNewlines B target acc = acc := by
  cases B with
  | nil => rfl
  | cons q rest =>
      have : ¬q < target := by have := h q (by simp); omega
      simp [scanNewlines, this]

theorem scanNewlines_append_stop :
    ∀ (A : List Nat) {B : List Nat} {target : Nat} (acc : Nat × Nat),
    (¬ ∀ p ∈ A, p < target) →
    scanNewlines (A ++ B) target acc = scanNewlines A target acc := by
  intro A
  induction A with
  | nil => intro B target acc h; exact absurd (by simp) h
  | cons p rest ih =>
      intro B target acc h
      by_cases hp : p < target
      · simp only [List.cons_append, scanNewlines, if_pos hp]
        apply ih
        intro hcon
        exact h (by intro q hq; rcases List.mem_cons.mp hq with rfl | hq
                    · exact hp
                    · exact hcon q hq)
      · simp [scanNewlines, hp]

theorem lineInfoAux_spec : ∀ (n : RopeNode), goodNode n = true →
    ∀ (base target : Nat) (acc : Nat × Nat), base ≤ target →
    lineInfoAux n base target acc =
      if base + (toText n).length < target then
        Sum.inr (scanNewlines ((newlinePositions (toText n)).map (· + base)) target acc)
      else
        Sum.inl (scanNewlines ((newlinePositions (toText n)).map (· + base)) target acc) := by
  intro n
  induction n with
  | leaf l =>
      intro h base target acc _
      have h1 : l.length = l.text.length := (goodLeaf_iff.mp h).1
      have h2 : l.newlines = newlinePositions l.text := (goodLeaf_iff.mp h).2.1
      simp only [lineInfoAux, toText_leaf, h1, h2]
      by_cases hc : base + l.text.length < target
      · rw [if_pos hc, if_pos hc]
        congr 1
        apply skipLeaf_eq_scanNewlines
        intro p hp
        have := newlinePositions_lt_length hp
        omega
      · rw [if_neg hc, if_neg hc]
        congr 1
        exact leafScan_eq_scanNewlines _ _ _ _
  | node a b len ln iha ihb =>
      intro h base target acc hbt
      rcases goodNode_node_iff.mp h with ⟨ha, hb, _, _⟩
      have hta : a.length = (toText a).length := length_eq_of_good ha
      have hmap : ((newlinePositions (toText b)).map (· + (toText a).length)).map (· + base)
          = (newlinePositions (toText b)).map (· + (base + (toText a).length)) := by
        rw [List.map_map]
        apply List.map_congr_left
        intro q _
        simp only [Function.comp_apply]
        omega
      have hAlt : ∀ p ∈ (newlinePositions (toText a)).map (· + base),
          p < base + (toText a).length := by
        intro p hp
        simp only [List.mem_map] at hp
        rcases hp with ⟨q, hq, rfl⟩
        have := newlinePositions_lt_length hq
        omega
      have hBge : ∀ q ∈ (newlinePositions (toText b)).map (· + (base + (toText a).length)),
          base + (toText a).length ≤ q := by
        intro q hq
        simp only [List.mem_map] at hq
        rcases hq with ⟨r, _, rfl⟩
        omega
      simp only [lineInfoAux, toText_node, newlinePositions_append, List.map_append, hmap,
        iha ha base target acc hbt]
      by_cases hca : base + (toText a).length < target
      · rw [if_pos hca]
        dsimp only
        have hbt2 : base + a.length ≤ target := by omega
        rw [hta] at hbt2 ⊢
        rw [ihb hb (base + (toText a).length) target _ hbt2]
        rw [scanNewlines_append_of_all_lt _ _ (fun p hp => lt_trans (hAlt p hp) hca)]
        by_cases hcb : base + (toText a).length + (toText b).length < target
        · rw [if_pos hcb, if_pos (by simp only [List.length_append]; omega)]
        · rw [if_neg hcb, if_neg (by simp only [List.length_append]; omega)]
      · rw [if_neg hca, if_neg (by simp only [List.length_append]; omega)]
        dsimp only
        congr 1
        by_cases hall : ∀ p ∈ (newlinePositions (toText a)).map (· + base), p < target
        · rw [scanNewlines_append_of_all_lt _ _ hall,
            scanNewlines_eq_of_ge _ (fun q hq => le_trans (by omega) (hBge q hq))]
        · rw [scanNewlines_append_stop _ _ hall]

/-- The line index of a clamped offset `target`: the number of newlines
strictly before it. -/
def lineOfOffset (doc : Str) (target : Nat) : Nat :=
  ((newlinePositions doc).takeWhile (· < target)).length

/-- The start offset of the line containing a clamped offset `target`. -/
def lineStartOfOffset (doc : Str) (target : Nat) : Nat :=
  match ((newlinePositions doc).takeWhile (· < target)).getLast? with
  | none => 0
  | some p => p + 1

theorem lineInfoAtOffset_spec {st : RopeModel} (h : goodNode st.root = true) (off : Nat) :
    st.lineInfoAtOffset off =
      (lineOfOffset (toText st.root) (min off (toText st.root).length),
       lineStartOfOffset (toText st.root) (min off (toText st.root).length)) := by
  have hmap : (newlinePositions (toText st.root)).map (· + 0)
      = newlinePositions (toText st.root) := by
    simp
  simp only [lineInfoAtOffset, getLength_eq h]
  rw [lineInfoAux_spec st.root h 0 (min off (toText st.root).length) (0, 0) (Nat.zero_le _)]
  have hcond : ¬ (0 + (toText st.root).length < min off (toText st.root).length) := by
    omega
  rw [if_neg hcond]
  dsimp only
  rw [scanNewlines_eq_takeWhile, hmap]
  simp only [Nat.zero_add]
  rfl

theorem offsetToCursor_spec {st : RopeModel} (h : goodNode st.root = true) (off : Nat) :
    st.offsetToCursor off =
      ⟨lineOfOffset (toText st.root) (min off (toText st.root).length),
       min off (toText st.root).length -
         lineStartOfOffset (toText st.root) (min off (toText st.root).length)⟩ := by
  simp only [offsetToCursor, getLength_eq h]
  rw [lineInfoAtOffset_spec h]
  have hmin : min (min off (toText st.root).length) (toText st.root).length
      = min off (toText st.root).length := by omega
  rw [hmin]

theorem length_takeWhile_le {α : Type} (P : α → Bool) :
    ∀ l : List α, (l.takeWhile P).length ≤ l.length := by
  intro l
  induction l with
  | nil => simp
  | cons x xs ih =>
      rw [List.takeWhile_cons]
      by_cases hx : P x = true
      · rw [if_pos hx]
        simp only [List.length_cons]
        omega
      · rw [if_neg hx]
        simp

theorem takeWhile_eq_take {α : Type} (P : α → Bool) :
    ∀ l : List α, l.takeWhile P = l.take (l.takeWhile P).length := by
  intro l
  induction l with
  | nil => simp
  | cons x xs ih =>
      rw [List.takeWhile_cons]
      by_cases hx : P x = true
      · rw [if_pos hx]
        simp only [List.length_cons, List.take_succ_cons]
        rw [← ih]
      · rw [if_neg hx]
        simp

theorem getElem?_length_takeWhile {α : Type} (P : α → Bool) :
    ∀ (l : List α) {a : α}, l[(l.takeWhile P).length]? = some a → P a = false := by
  intro l
  induction l with
  | nil => intro a ha; simp at ha
  | cons x xs ih =>
      intro a ha
      rw [List.takeWhile_cons] at ha
      by_cases hx : P x = true
      · rw [if_pos hx] at ha
        simp only [List.length_cons, List.getElem?_cons_succ] at ha
        exact ih ha
      · rw [if_neg hx] at ha
        simp only [List.length_nil, List.getElem?_cons_zero] at ha
        cases ha
        simpa using hx

theorem length_takeWhile_eq {α : Type} {P : α → Bool} :
    ∀ (l : List α) (k : Nat), k ≤ l.length →
    (∀ j, j < k → ∀ a, l[j]? = some a → P a = true) →
    (k = l.length ∨ ∀ a, l[k]? = some a → P a = false) →
    (l.takeWhile P).length = k := by
  intro l
  induction l with
  | nil =>
      intro k hk _ _
      simp only [List.length_nil] at hk
      simp [List.takeWhile_nil]
      omega
  | cons x xs ih =>
      intro k hk h1 h2
      cases k with
      | zero =>
          rcases h2 with h2 | h2
          · simp at h2
          · have hx : P x = false := h2 x (by simp)
            rw [List.takeWhile_cons, if_neg (by simp [hx])]
            rfl
      | succ k =>
          have hx : P x = true := h1 0 (by omega) x (by simp)
          rw [List.takeWhile_cons, if_pos hx]
          simp only [List.length_cons]
          have := ih k (by simpa using hk)
            (fun j hj a hja => h1 (j + 1) (by omega) a (by simpa using hja))
            (by
              rcases h2 with h2 | h2
              · left; simpa using h2
              · right; intro a ha; exact h2 a (by simpa using ha))
          omega

/-! ## Line starts and ends over the document -/

/-- The start offset of line `i` (meaningful for
`i ≤ (newlinePositions doc).length`). -/
def lineStartA (doc : Str) : Nat → Nat
  | 0 => 0
  | j + 1 => (newlinePositions doc).getD j 0 + 1

/-- The end offset (exclusive of the terminating newline) of line `i`. -/
def lineEndA (doc : Str) (i : Nat) : Nat :=
  if i = (newlinePositions doc).length then doc.length
  else (newlinePositions doc).getD i 0

theorem nl_getElem_lt_length {doc : Str} {i : Nat}
    (hi : i < (newlinePositions doc).length) :
    (newlinePositions doc)[i] < doc.length :=
  newlinePositions_lt_length (List.getElem_mem hi)

theorem nl_strictMono {doc : Str} {i j : Nat} (hij : i < j)
    (hj : j < (newlinePositions doc).length) :
    (newlinePositions doc).get ⟨i, by omega⟩ < (newlinePositions doc)[j] := by
  have := List.pairwise_iff_getElem.mp (newlinePositions_sorted doc)
  have h2 := this i j (by omega) hj hij
  simpa using h2

theorem lineStartA_le_lineEndA {doc : Str} {i : Nat}
    (hi : i ≤ (newlinePositions doc).length) :
    lineStartA doc i ≤ lineEndA doc i := by
  cases i with
  | zero => simp [lineStartA]
  | succ j =>
      have hj : j < (newlinePositions doc).length := by omega
      rw [lineStartA, lineEndA, List.getD_eq_getElem?_getD, List.getElem?_eq_getElem hj]
      by_cases hlast : j + 1 = (newlinePositions doc).length
      · rw [if_pos hlast]
        have := nl_getElem_lt_length hj
        simp only [Option.getD_some]
        omega
      · rw [if_neg hlast]
        have hj1 : j + 1 < (newlinePositions doc).length := by omega
        rw [List.getD_eq_getElem?_getD, List.getElem?_eq_getElem hj1]
        have hmono : (newlinePositions doc).get ⟨j, by omega⟩ < (newlinePositions doc)[j + 1] :=
          nl_strictMono (by omega) hj1
        simp only [List.get_eq_getElem] at hmono
        simp only [Option.getD_some]
        omega

theorem lineEndA_le_length {doc : Str} {i : Nat}
    (hi : i ≤ (newlinePositions doc).length) :
    lineEndA doc i ≤ doc.length := by
  rw [lineEndA]
  by_cases hlast : i = (newlinePositions doc).length
  · rw [if_pos hlast]
  · rw [if_neg hlast]
    have hj : i < (newlinePositions doc).length := by omega
    rw [List.getD_eq_getElem?_getD, List.getElem?_eq_getElem hj]
    have := nl_getElem_lt_length hj
    simp only [Option.getD_some]
    omega

theorem lineToOffset_spec {st : RopeModel} (h : goodNode st.root = true) {i : Nat}
    (hi : i ≤ (newlinePositions (toText st.root)).length) :
    st.lineToOffset i = some (lineStartA (toText st.root) i) := by
  rw [lineToOffset, getLineCount_eq h]
  rw [if_neg (by omega)]
  cases i with
  | zero => simp [lineStartA]
  | succ j =>
      rw [if_neg (by omega)]
      have hj : j < (newlinePositions (toText st.root)).length := by omega
      simp only [Nat.add_sub_cancel]
      rw [getNewlineOffset_spec h, List.getElem?_eq_getElem hj]
      dsimp only
      simp only [lineStartA, List.getD_eq_getElem?_getD, List.getElem?_eq_getElem hj,
        Option.getD_some]

theorem getLineEndOffset_spec {st : RopeModel} (h : goodNode st.root = true) {i : Nat}
    (hi : i ≤ (newlinePositions (toText st.root)).length) :
    st.getLineEndOffset i = lineEndA (toText st.root) i := by
  rw [getLineEndOffset, getLineCount_eq h, getLength_eq h]
  rw [if_neg (by omega)]
  by_cases hlast : i = (newlinePositions (toText st.root)).length
  · rw [if_pos (by omega), lineEndA, if_pos hlast]
  · rw [if_neg (by omega)]
    have hj : i < (newlinePositions (toText st.root)).length := by omega
    rw [getNewlineOffset_spec h, List.getElem?_eq_getElem hj, lineEndA, if_neg hlast]
    simp only [List.getD_eq_getElem?_getD, List.getElem?_eq_getElem hj, Option.getD_some]

theorem getLine_spec {st : RopeModel} (h : goodNode st.root = true) {i : Nat}
    (hi : i ≤ (newlinePositions (toText st.root)).length) :
    st.getLine (i : Int) =
      some (sliceSpan (toText st.root) (lineStartA (toText st.root) i)
        (lineEndA (toText st.root) i)) := by
  rw [getLine, getLineCount_eq h]
  rw [if_neg (by omega)]
  simp only [Int.toNat_natCast]
  rw [lineToOffset_spec h hi]
  dsimp only
  rw [getLineEndOffset_spec h hi,
    sliceText_eq_sliceSpan h (lineStartA_le_lineEndA hi) (lineEndA_le_length hi)]

theorem getLineLength_spec {st : RopeModel} (h : goodNode st.root = true) {i : Nat}
    (hi : i ≤ (newlinePositions (toText st.root)).length) :
    st.getLineLength i = lineEndA (toText st.root) i - lineStartA (toText st.root) i := by
  rw [getLineLength, getLine_spec h hi]
  have hlen : (sliceSpan (toText st.root) (lineStartA (toText st.root) i)
      (lineEndA (toText st.root) i)).length =
        lineEndA (toText st.root) i - lineStartA (toText st.root) i :=
    sliceSpan_length_of_le (lineEndA_le_length hi)
  by_cases hempty : (sliceSpan (toText st.root) (lineStartA (toText st.root) i)
      (lineEndA (toText st.root) i)).isEmpty
  · simp only [if_pos hempty]
    rw [List.isEmpty_iff] at hempty
    rw [hempty] at hlen
    simpa using hlen
  · simp only [if_neg hempty]
    exact hlen

theorem lineStartOfOffset_eq (doc : Str) (o : Nat) :
    lineStartOfOffset doc o = lineStartA doc (lineOfOffset doc o) := by
  rw [lineStartOfOffset]
  cases hc : lineOfOffset doc o with
  | zero =>
      simp only [lineOfOffset] at hc
      have hnil : (newlinePositions doc).takeWhile (· < o) = [] :=
        List.eq_nil_of_length_eq_zero hc
      rw [hnil]
      rfl
  | succ j =>
      simp only [lineOfOffset] at hc
      have hle : j + 1 ≤ (newlinePositions doc).length := by
        have := length_takeWhile_le (· < o) (newlinePositions doc)
        omega
      have hj : j < (newlinePositions doc).length := by omega
      have htake : (newlinePositions doc).takeWhile (· < o)
          = (newlinePositions doc).take (j + 1) := by
        rw [takeWhile_eq_take (· < o) (newlinePositions doc), hc]
      rw [htake, List.getLast?_take, if_neg (by omega)]
      simp only [Nat.add_sub_cancel, List.getElem?_eq_getElem hj, Option.or_some]
      simp [lineStartA, List.getD_eq_getElem?_getD, List.getElem?_eq_getElem hj]

theorem lineOfOffset_le (doc : Str) (o : Nat) :
    lineOfOffset doc o ≤ (newlinePositions doc).length :=
  length_takeWhile_le _ _

theorem lineStartOfOffset_le (doc : Str) (o : Nat) : lineStartOfOffset doc o ≤ o := by
  rw [lineStartOfOffset]
  cases hL : ((newlinePositions doc).takeWhile (· < o)).getLast? with
  | none => exact Nat.zero_le o
  | some p =>
      rw [List.getLast?_eq_getElem?] at hL
      have hmem : p ∈ (newlinePositions doc).takeWhile (· < o) :=
        List.getElem?_mem hL
      have hp := List.mem_takeWhile_imp hmem
      simp only [decide_eq_true_eq] at hp
      dsimp only
      omega

theorem o_le_lineEndA {doc : Str} {o : Nat} (ho : o ≤ doc.length) :
    o ≤ lineEndA doc (lineOfOffset doc o) := by
  rw [lineEndA]
  by_cases hlast : lineOfOffset doc o = (newlinePositions doc).length
  · rw [if_pos hlast]; exact ho
  · rw [if_neg hlast]
    have hlt : lineOfOffset doc o < (newlinePositions doc).length := by
      have := lineOfOffset_le doc o
      omega
    have hbound : decide ((newlinePositions doc)[lineOfOffset doc o] < o) = false :=
      getElem?_length_takeWhile (· < o) (newlinePositions doc)
        (List.getElem?_eq_getElem hlt)
    simp only [decide_eq_false_iff_not, not_lt] at hbound
    rw [List.getD_eq_getElem?_getD, List.getElem?_eq_getElem hlt]
    simpa using hbound

theorem clampCursor_valid {st : RopeModel} (h : goodNode st.root = true) {i c : Nat}
    (hi : i ≤ (newlinePositions (toText st.root)).length)
    (hc : c ≤ lineEndA (toText st.root) i - lineStartA (toText st.root) i) :
    st.clampCursor ⟨(i : Int), (c : Int)⟩ = ⟨i, c⟩ := by
  rw [clampCursor, getLineCount_eq h]
  have hline : (max 0 (min (i : Int)
      ((((newlinePositions (toText st.root)).length + 1 : Nat) : Int) - 1))).toNat = i := by
    omega
  rw [hline, getLineLength_spec h hi]
  have hchar : (max 0 (min (c : Int)
      ((lineEndA (toText st.root) i - lineStartA (toText st.root) i : Nat) : Int))).toNat
      = c := by
    omega
  rw [hchar]

theorem cursorToOffset_valid {st : RopeModel} (h : goodNode st.root = true) {i c : Nat}
    (hi : i ≤ (newlinePositions (toText st.root)).length)
    (hc : c ≤ lineEndA (toText st.root) i - lineStartA (toText st.root) i) :
    st.cursorToOffset ⟨(i : Int), (c : Int)⟩ = lineStartA (toText st.root) i + c := by
  rw [cursorToOffset, clampCursor_valid h hi hc]
  dsimp only
  rw [lineToOffset_spec h hi]
  dsimp only
  rw [getLength_eq h]
  have h1 := lineStartA_le_lineEndA hi
  have h2 := lineEndA_le_length hi
  omega

theorem cursorToOffset_zero {st : RopeModel} (h : goodNode st.root = true) :
    st.cursorToOffset ⟨0, 0⟩ = 0 := by
  have := cursorToOffset_valid h (Nat.zero_le (newlinePositions (toText st.root)).length)
    (Nat.zero_le _)
  simpa [lineStartA] using this

theorem cursorToOffset_le {st : RopeModel} (h : goodNode st.root = true)
    (c : InputCursor) : st.cursorToOffset c ≤ (toText st.root).length := by
  rw [cursorToOffset]
  cases hL : st.lineToOffset (st.clampCursor c).line with
  | none => exact Nat.zero_le _
  | some v =>
      dsimp only
      rw [getLength_eq h]
      omega

theorem cursorToOffset_offsetToCursor {st : RopeModel} (h : goodNode st.root = true)
    {o : Nat} (ho : o ≤ (toText st.root).length) :
    st.cursorToOffset (st.offsetToCursor o).toInput = o := by
  rw [offsetToCursor_spec h]
  have hmin : min o (toText st.root).length = o := by omega
  rw [hmin]
  have hc_le : lineOfOffset (toText st.root) o ≤ (newlinePositions (toText st.root)).length :=
    lineOfOffset_le _ _
  have hs_eq : lineStartOfOffset (toText st.root) o
      = lineStartA (toText st.root) (lineOfOffset (toText st.root) o) :=
    lineStartOfOffset_eq _ _
  have hs_le : lineStartOfOffset (toText st.root) o ≤ o := lineStartOfOffset_le _ _
  have hend : o ≤ lineEndA (toText st.root) (lineOfOffset (toText st.root) o) :=
    o_le_lineEndA ho
  have hs_le2 : lineStartA (toText st.root) (lineOfOffset (toText st.root) o)
      ≤ lineEndA (toText st.root) (lineOfOffset (toText st.root) o) :=
    lineStartA_le_lineEndA hc_le
  have hvalid : o - lineStartOfOffset (toText st.root) o
      ≤ lineEndA (toText st.root) (lineOfOffset (toText st.root) o)
        - lineStartA (toText st.root) (lineOfOffset (toText st.root) o) := by
    omega
  rw [show CursorPosition.toInput
      ⟨lineOfOffset (toText st.root) o, o - lineStartOfOffset (toText st.root) o⟩
      = ⟨(lineOfOffset (toText st.root) o : Int),
         ((o - lineStartOfOffset (toText st.root) o : Nat) : Int)⟩ from rfl]
  rw [cursorToOffset_valid h hc_le hvalid]
  omega

theorem lineOfOffset_of_valid {doc : Str} {i c : Nat}
    (hi : i ≤ (newlinePositions doc).length)
    (hc : c ≤ lineEndA doc i - lineStartA doc i) :
    lineOfOffset doc (lineStartA doc i + c) = i := by
  have hse := lineStartA_le_lineEndA hi
  rw [lineOfOffset]
  apply length_takeWhile_eq _ i hi
  · intro j hj a hja
    have hjlt : j < (newlinePositions doc).length := by omega
    rw [List.getElem?_eq_getElem hjlt] at hja
    cases hja
    simp only [decide_eq_true_eq]
    cases i with
    | zero => omega
    | succ i0 =>
        have hi0 : i0 < (newlinePositions doc).length := by omega
        have hup : (newlinePositions doc)[j] ≤ (newlinePositions doc)[i0] := by
          rcases Nat.lt_or_ge j i0 with hlt | hge
          · exact le_of_lt (nl_strictMono hlt hi0)
          · have : j = i0 := by omega
            subst this
            exact le_rfl
        have hstart : lineStartA doc (i0 + 1) = (newlinePositions doc)[i0] + 1 := by
          simp [lineStartA, List.getD_eq_getElem?_getD, List.getElem?_eq_getElem hi0]
        omega
  · by_cases hlast : i = (newlinePositions doc).length
    · left; exact hlast
    · right
      intro a ha
      have hilt : i < (newlinePositions doc).length := by omega
      rw [List.getElem?_eq_getElem hilt] at ha
      cases ha
      simp only [decide_eq_false_iff_not, not_lt]
      have hend : lineEndA doc i = (newlinePositions doc)[i] := by
        rw [lineEndA, if_neg hlast]
        simp [List.getD_eq_getElem?_getD, List.getElem?_eq_getElem hilt]
      omega

theorem offsetToCursor_valid {st : RopeModel} (h : goodNode st.root = true) {i c : Nat}
    (hi : i ≤ (newlinePositions (toText st.root)).length)
    (hc : c ≤ lineEndA (toText st.root) i - lineStartA (toText st.root) i) :
    st.offsetToCursor (lineStartA (toText st.root) i + c) = ⟨i, c⟩ := by
  rw [offsetToCursor_spec h]
  have h1 := lineStartA_le_lineEndA hi
  have h2 := lineEndA_le_length hi
  have hmin : min (lineStartA (toText st.root) i + c) (toText st.root).length
      = lineStartA (toText st.root) i + c := by omega
  rw [hmin, lineStartOfOffset_eq, lineOfOffset_of_valid hi hc]
  congr 1
  omega

theorem offsetToCursor_zero {st : RopeModel} (h : goodNode st.root = true) :
    st.offsetToCursor 0 = ⟨0, 0⟩ := by
  have := offsetToCursor_valid h (Nat.zero_le (newlinePositions (toText st.root)).length)
    (Nat.zero_le _)
  simpa [lineStartA] using this

/-! ## Mutator specifications -/

theorem splitOption_spec (m : Option RopeNode) (k : Nat) (h : goodOpt m = true) :
    optText (splitOption m k).1 = (optText m).take k ∧
    optText (splitOption m k).2 = (optText m).drop k ∧
    goodOpt (splitOption m k).1 = true ∧ goodOpt (splitOption m k).2 = true := by
  cases m with
  | none => simp [splitOption]
  | some n => exact split_spec n k (by simpa using h)

theorem applyInsert_spec {st : RopeModel} {offset : Nat} {text : Str}
    (h : goodNode st.root = true) (ht : text.length ≠ 0) (rh : Bool) (cb : CursorPosition) :
    goodNode ((st.applyInsert offset text rh cb).1).root = true ∧
    toText ((st.applyInsert offset text rh cb).1).root
      = (toText st.root).take offset ++ text ++ (toText st.root).drop offset ∧
    ((st.applyInsert offset text rh cb).1).cursorOffset = offset + text.length ∧
    ((st.applyInsert offset text rh cb).1).historyPaused = st.historyPaused := by
  rcases split_spec st.root offset h with ⟨s1, s2, g1, g2⟩
  rcases fromText_spec text with ⟨gf, tf⟩
  have gmid : goodNode (concat (split st.root offset).1 (some (fromText text))) = true :=
    goodNode_concat g1 (by simpa using gf)
  have groot : goodNode (concat
      (some (concat (split st.root offset).1 (some (fromText text))))
      (split st.root offset).2) = true :=
    goodNode_concat (by simpa using gmid) g2
  rcases rebalance_spec groot with ⟨gr, tr⟩
  have htext : toText (rebalance (concat
      (some (concat (split st.root offset).1 (some (fromText text))))
      (split st.root offset).2))
      = (toText st.root).take offset ++ text ++ (toText st.root).drop offset := by
    rw [tr, toText_concat, optText_some, toText_concat, s1, optText_some, tf, s2,
      List.append_assoc]
  rw [applyInsert, if_neg ht]
  by_cases hrec : (rh && !st.historyPaused) = true
  · simp only [hrec, if_true, recordChange]
    refine ⟨gr, htext, ?_, ?_⟩ <;> trivial
  · rw [Bool.not_eq_true] at hrec
    simp only [hrec, Bool.false_eq_true, if_false]
    refine ⟨gr, htext, ?_, ?_⟩ <;> trivial

theorem applyDelete_spec {st : RopeModel} {offset : Nat} {text : Str}
    (h : goodNode st.root = true) (ht : text.length ≠ 0) (rh : Bool) (cb : CursorPosition) :
    goodNode ((st.applyDelete offset text rh cb).1).root = true ∧
    toText ((st.applyDelete offset text rh cb).1).root
      = (toText st.root).take offset ++ (toText st.root).drop (offset + text.length) ∧
    ((st.applyDelete offset text rh cb).1).cursorOffset = offset ∧
    ((st.applyDelete offset text rh cb).1).historyPaused = st.historyPaused := by
  rcases split_spec st.root offset h with ⟨s1, s2, g1, g2⟩
  rcases splitOption_spec (split st.root offset).2 text.length g2 with ⟨q1, q2, gq1, gq2⟩
  have groot : goodNode (concat (split st.root offset).1
      (splitOption (split st.root offset).2 text.length).2) = true :=
    goodNode_concat g1 gq2
  rcases rebalance_spec groot with ⟨gr, tr⟩
  have htext : toText (rebalance (concat (split st.root offset).1
      (splitOption (split st.root offset).2 text.length).2))
      = (toText st.root).take offset ++ (toText st.root).drop (offset + text.length) := by
    rw [tr, toText_concat, s1, q2, s2, List.drop_drop]
  rw [applyDelete, if_neg ht]
  by_cases hrec : (rh && !st.historyPaused) = true
  · simp only [hrec, if_true, recordChange]
    refine ⟨gr, htext, ?_, ?_⟩ <;> trivial
  · rw [Bool.not_eq_true] at hrec
    simp only [hrec, Bool.false_eq_true, if_false]
    refine ⟨gr, htext, ?_, ?_⟩ <;> trivial

theorem applyInsert_empty {st : RopeModel} {offset : Nat} (rh : Bool) (cb : CursorPosition) :
    st.applyInsert offset [] rh cb = (st, []) := by
  simp [applyInsert]

theorem applyDelete_empty {st : RopeModel} {offset : Nat} (rh : Bool) (cb : CursorPosition) :
    st.applyDelete offset [] rh cb = (st, []) := by
  simp [applyDelete]

theorem applyInsert_stacks_norecord {st : RopeModel} {offset : Nat} {text : Str}
    {rh : Bool} {cb : CursorPosition} (hcond : (rh && !st.historyPaused) = false) :
    ((st.applyInsert offset text rh cb).1).undoStack = st.undoStack ∧
    ((st.applyInsert offset text rh cb).1).redoStack = st.redoStack := by
  rw [applyInsert]
  by_cases ht : text.length = 0
  · rw [if_pos ht]
    exact ⟨rfl, rfl⟩
  · rw [if_neg ht]
    dsimp only
    simp only [hcond, Bool.false_eq_true, if_false]
    refine ⟨?_, ?_⟩ <;> trivial

theorem applyDelete_stacks_norecord {st : RopeModel} {offset : Nat} {text : Str}
    {rh : Bool} {cb : CursorPosition} (hcond : (rh && !st.historyPaused) = false) :
    ((st.applyDelete offset text rh cb).1).undoStack = st.undoStack ∧
    ((st.applyDelete offset text rh cb).1).redoStack = st.redoStack := by
  rw [applyDelete]
  by_cases ht : text.length = 0
  · rw [if_pos ht]
    exact ⟨rfl, rfl⟩
  · rw [if_neg ht]
    dsimp only
    simp only [hcond, Bool.false_eq_true, if_false]
    refine ⟨?_, ?_⟩ <;> trivial

theorem applyInsert_record {st : RopeModel} {offset : Nat} {text : Str}
    {rh : Bool} {cb : CursorPosition} (h : goodNode st.root = true)
    (ht : text.length ≠ 0) (hcond : (rh && !st.historyPaused) = true) :
    ∃ ca cob,
      ((st.applyInsert offset text rh cb).1).undoStack =
        ⟨.insert, offset, text, cb, ca, cob, offset + text.length⟩ :: st.undoStack ∧
      (cb = ⟨0, 0⟩ → cob = 0) ∧
      ((st.applyInsert offset text rh cb).1).redoStack = [] := by
  rcases split_spec st.root offset h with ⟨s1, s2, g1, g2⟩
  rcases fromText_spec text with ⟨gf, tf⟩
  have gmid : goodNode (concat (split st.root offset).1 (some (fromText text))) = true :=
    goodNode_concat g1 (by simpa using gf)
  have groot : goodNode (concat
      (some (concat (split st.root offset).1 (some (fromText text))))
      (split st.root offset).2) = true :=
    goodNode_concat (by simpa using gmid) g2
  rcases rebalance_spec groot with ⟨gr, _⟩
  rw [applyInsert, if_neg ht]
  dsimp only
  simp only [hcond, if_true]
  refine ⟨_, _, rfl, ?_, rfl⟩
  intro hcb
  subst hcb
  exact cursorToOffset_zero gr

theorem applyDelete_record {st : RopeModel} {offset : Nat} {text : Str}
    {rh : Bool} {cb : CursorPosition} (h : goodNode st.root = true)
    (ht : text.length ≠ 0) (hcond : (rh && !st.historyPaused) = true) :
    ∃ ca cob,
      ((st.applyDelete offset text rh cb).1).undoStack =
        ⟨.delete, offset, text, cb, ca, cob, offset⟩ :: st.undoStack ∧
      (cb = ⟨0, 0⟩ → cob = 0) ∧
      ((st.applyDelete offset text rh cb).1).redoStack = [] := by
  rcases split_spec st.root offset h with ⟨s1, s2, g1, g2⟩
  rcases splitOption_spec (split st.root offset).2 text.length g2 with ⟨q1, q2, gq1, gq2⟩
  have groot : goodNode (concat (split st.root offset).1
      (splitOption (split st.root offset).2 text.length).2) = true :=
    goodNode_concat g1 gq2
  rcases rebalance_spec groot with ⟨gr, _⟩
  rw [applyDelete, if_neg ht]
  dsimp only
  simp only [hcond, if_true]
  refine ⟨_, _, rfl, ?_, rfl⟩
  intro hcb
  subst hcb
  exact cursorToOffset_zero gr

/-! ## Undo/redo chains -/

/-- The document transformation an Insert record performs. -/
def doInsert (d : Str) (o : Nat) (t : Str) : Str := d.take o ++ t ++ d.drop o

/-- The document transformation a Delete record performs. -/
def doDelete (d : Str) (o n : Nat) : Str := d.take o ++ d.drop (o + n)

/-- The document produced by (re)applying a change record. -/
def stepDoc (rec : RopeChange) (dPrev : Str) : Str :=
  match rec.kind with
  | .insert => doInsert dPrev rec.offset rec.text
  | .delete => doDelete dPrev rec.offset rec.text.length

/-- A change record is consistent with the document it was recorded on. -/
def validStep (rec : RopeChange) (dPrev : Str) : Prop :=
  rec.text ≠ [] ∧
  match rec.kind with
  | .insert => rec.offset ≤ dPrev.length
  | .delete => rec.offset + rec.text.length ≤ dPrev.length ∧
      rec.text = sliceSpan dPrev rec.offset (rec.offset + rec.text.length)

/-- The undo stack (newest record first) leads from the construction string
`s` to the current document `d` by consistent steps, and the oldest record
was made with the cursor at offset 0. -/
def Chain (s : Str) : List RopeChange → Str → Prop
  | [], d => d = s
  | rec :: rest, d =>
      ∃ dPrev, validStep rec dPrev ∧ d = stepDoc rec dPrev ∧
        (rest = [] → rec.cursorOffsetBefore = 0) ∧ Chain s rest dPrev

/-- A forward chain: applying the records in list order to `d` yields `dN`. -/
def FChain : Str → List RopeChange → Str → Prop
  | d, [], dN => dN = d
  | d, rec :: rest, dN => validStep rec d ∧ FChain (stepDoc rec d) rest dN

theorem take_append_of_length {α : Type} (A B : List α) : (A ++ B).take A.length = A := by
  rw [List.take_append_eq_append_take, List.take_of_length_le le_rfl, Nat.sub_self,
    List.take_zero, List.append_nil]

theorem drop_append_of_length {α : Type} (A B : List α) : (A ++ B).drop A.length = B := by
  rw [List.drop_append_eq_append_drop, List.drop_of_length_le le_rfl, Nat.sub_self,
    List.drop_zero, List.nil_append]

theorem take_append_of_eq_length {α : Type} {A B : List α} {k : Nat} (h : A.length = k) :
    (A ++ B).take k = A := by
  subst h
  exact take_append_of_length A B

theorem drop_append_of_eq_length {α : Type} {A B : List α} {k : Nat} (h : A.length = k) :
    (A ++ B).drop k = B := by
  subst h
  exact drop_append_of_length A B

theorem doInsert_length {d : Str} {o : Nat} (t : Str) (ho : o ≤ d.length) :
    (doInsert d o t).length = d.length + t.length := by
  simp only [doInsert, List.length_append, List.length_take, List.length_drop]
  omega

theorem doDelete_length {d : Str} {o n : Nat} (h : o + n ≤ d.length) :
    (doDelete d o n).length = d.length - n := by
  simp only [doDelete, List.length_append, List.length_take, List.length_drop]
  omega

theorem undo_of_insert {d : Str} {o : Nat} {t : Str} (ho : o ≤ d.length) :
    doDelete (doInsert d o t) o t.length = d := by
  have hlen : (d.take o).length = o := by
    simp only [List.length_take]
    omega
  have hlen2 : (d.take o ++ t).length = o + t.length := by
    simp only [List.length_append, hlen]
  rw [doDelete, doInsert, drop_append_of_eq_length hlen2, List.append_assoc,
    take_append_of_eq_length hlen, List.take_append_drop]

theorem undo_of_delete {d : Str} {o n : Nat} (h : o + n ≤ d.length) :
    doInsert (doDelete d o n) o (sliceSpan d o (o + n)) = d := by
  have hlen : (d.take o).length = o := by
    simp only [List.length_take]
    omega
  rw [doInsert, doDelete, take_append_of_eq_length hlen, drop_append_of_eq_length hlen]
  exact take_sliceSpan_drop (by omega)

theorem validStep_text_ne {rec : RopeChange} {d : Str} (h : validStep rec d) :
    rec.text ≠ [] := h.1

theorem fchain_append {s : Str} : ∀ {xs : List RopeChange} {m : Str} {rec : RopeChange},
    FChain s xs m → validStep rec m → FChain s (xs ++ [rec]) (stepDoc rec m) := by
  intro xs
  induction xs generalizing s with
  | nil =>
      intro m rec hf hv
      have hm : m = s := hf
      subst hm
      exact ⟨hv, rfl⟩
  | cons r rest ih =>
      intro m rec hf hv
      exact ⟨hf.1, ih hf.2 hv⟩

theorem chain_to_fchain {s : Str} : ∀ {recs : List RopeChange} {d : Str},
    Chain s recs d → FChain s recs.reverse d := by
  intro recs
  induction recs with
  | nil =>
      intro d hc
      exact hc
  | cons rec rest ih =>
      intro d hc
      rcases hc with ⟨dPrev, hv, hstep, _, hch⟩
      rw [List.reverse_cons, hstep]
      exact fchain_append (ih hch) hv

theorem undo_step {st : RopeModel} {rec : RopeChange} {rest : List RopeChange}
    (h : goodNode st.root = true) (hstack : st.undoStack = rec :: rest)
    {dPrev : Str} (hv : validStep rec dPrev) (hd : toText st.root = stepDoc rec dPrev) :
    goodNode ((st.undo).1).root = true ∧
    toText ((st.undo).1).root = dPrev ∧
    ((st.undo).1).cursorOffset = rec.cursorOffsetBefore ∧
    ((st.undo).1).historyPaused = false ∧
    ((st.undo).1).undoStack = rest ∧
    ((st.undo).1).redoStack = rec :: st.redoStack := by
  have htne : rec.text ≠ [] := hv.1
  have htlen : rec.text.length ≠ 0 := by
    intro hz
    exact htne (List.eq_nil_of_length_eq_zero hz)
  rw [undo, hstack]
  dsimp only
  cases hk : rec.kind with
  | insert =>
      have hv2 : rec.offset ≤ dPrev.length := by
        have := hv.2
        rw [hk] at this
        exact this
      have hd2 : toText st.root = doInsert dPrev rec.offset rec.text := by
        rw [hd, stepDoc, hk]
      rcases @applyDelete_spec { st with undoStack := rest, historyPaused := true }
          rec.offset rec.text h htlen false rec.cursorBefore with ⟨g1, t1, c1, p1⟩
      rcases @applyDelete_stacks_norecord { st with undoStack := rest, historyPaused := true }
          rec.offset rec.text false rec.cursorBefore rfl with ⟨su, sr⟩
      refine ⟨g1, ?_, rfl, rfl, su, by rw [sr]⟩
      rw [t1]
      show doDelete (toText ({ st with undoStack := rest, historyPaused := true } :
        RopeModel).root) rec.offset rec.text.length = dPrev
      have hroot : toText ({ st with undoStack := rest, historyPaused := true } :
          RopeModel).root = doInsert dPrev rec.offset rec.text := hd2
      rw [hroot, undo_of_insert hv2]
  | delete =>
      have hv2 : rec.offset + rec.text.length ≤ dPrev.length ∧
          rec.text = sliceSpan dPrev rec.offset (rec.offset + rec.text.length) := by
        have := hv.2
        rw [hk] at this
        exact this
      have hd2 : toText st.root = doDelete dPrev rec.offset rec.text.length := by
        rw [hd, stepDoc, hk]
      rcases @applyInsert_spec { st with undoStack := rest, historyPaused := true }
          rec.offset rec.text h htlen false rec.cursorBefore with ⟨g1, t1, c1, p1⟩
      rcases @applyInsert_stacks_norecord { st with undoStack := rest, historyPaused := true }
          rec.offset rec.text false rec.cursorBefore rfl with ⟨su, sr⟩
      refine ⟨g1, ?_, rfl, rfl, su, by rw [sr]⟩
      rw [t1]
      show doInsert (toText ({ st with undoStack := rest, historyPaused := true } :
        RopeModel).root) rec.offset rec.text = dPrev
      have hroot : toText ({ st with undoStack := rest, historyPaused := true } :
          RopeModel).root = doDelete dPrev rec.offset rec.text.length := hd2
      rw [hroot]
      have hslen : (sliceSpan dPrev rec.offset (rec.offset + rec.text.length)).length
          = rec.text.length := by
        rw [sliceSpan_length_of_le hv2.1]
        omega
      conv_lhs => rw [hv2.2]
      rw [hslen]
      exact undo_of_delete hv2.1

theorem redo_step {st : RopeModel} {rec : RopeChange} {rest : List RopeChange}
    (h : goodNode st.root = true) (hstack : st.redoStack = rec :: rest)
    (htne : rec.text ≠ []) :
    goodNode ((st.redo).1).root = true ∧
    toText ((st.redo).1).root = stepDoc rec (toText st.root) ∧
    ((st.redo).1).cursorOffset = rec.cursorOffsetAfter ∧
    ((st.redo).1).historyPaused = false ∧
    ((st.redo).1).redoStack = rest ∧
    ((st.redo).1).undoStack = rec :: st.undoStack := by
  have htlen : rec.text.length ≠ 0 := by
    intro hz
    exact htne (List.eq_nil_of_length_eq_zero hz)
  rw [redo, hstack]
  dsimp only
  cases hk : rec.kind with
  | insert =>
      rcases @applyInsert_spec { st with redoStack := rest, historyPaused := true }
          rec.offset rec.text h htlen false rec.cursorAfter with ⟨g1, t1, c1, p1⟩
      rcases @applyInsert_stacks_norecord { st with redoStack := rest, historyPaused := true }
          rec.offset rec.text false rec.cursorAfter rfl with ⟨su, sr⟩
      refine ⟨g1, ?_, rfl, rfl, sr, by rw [su]⟩
      rw [t1, stepDoc, hk]
      rfl
  | delete =>
      rcases @applyDelete_spec { st with redoStack := rest, historyPaused := true }
          rec.offset rec.text h htlen false rec.cursorAfter with ⟨g1, t1, c1, p1⟩
      rcases @applyDelete_stacks_norecord { st with redoStack := rest, historyPaused := true }
          rec.offset rec.text false rec.cursorAfter rfl with ⟨su, sr⟩
      refine ⟨g1, ?_, rfl, rfl, sr, by rw [su]⟩
      rw [t1, stepDoc, hk]
      rfl

/-- Iterated `undo()`: `undoN st k` is the state after `k` calls. -/
def undoN : RopeModel → Nat → RopeModel
  | st, 0 => st
  | st, k + 1 => undoN (st.undo).1 k

/-- Iterated `redo()`. -/
def redoN : RopeModel → Nat → RopeModel
  | st, 0 => st
  | st, k + 1 => redoN (st.redo).1 k

theorem undo_stack_empty {st : RopeModel} (h : st.undoStack = []) : st.undo = (st, []) := by
  rw [undo, h]

theorem redo_stack_empty {st : RopeModel} (h : st.redoStack = []) : st.redo = (st, []) := by
  rw [redo, h]

theorem undoN_of_empty {st : RopeModel} (h : st.undoStack = []) : ∀ k, undoN st k = st := by
  intro k
  induction k with
  | zero => rfl
  | succ k ih =>
      rw [undoN, undo_stack_empty h]
      exact ih

theorem redoN_of_empty {st : RopeModel} (h : st.redoStack = []) : ∀ k, redoN st k = st := by
  intro k
  induction k with
  | zero => rfl
  | succ k ih =>
      rw [redoN, redo_stack_empty h]
      exact ih

theorem undoN_add (st : RopeModel) (a b : Nat) : undoN st (a + b) = undoN (undoN st a) b := by
  induction a generalizing st with
  | zero => rw [Nat.zero_add]; rfl
  | succ a ih =>
      rw [show a + 1 + b = (a + b) + 1 from by omega]
      rw [show undoN st ((a + b) + 1) = undoN (st.undo).1 (a + b) from rfl]
      rw [show undoN st (a + 1) = undoN (st.undo).1 a from rfl]
      exact ih (st.undo).1

theorem redoN_add (st : RopeModel) (a b : Nat) : redoN st (a + b) = redoN (redoN st a) b := by
  induction a generalizing st with
  | zero => rw [Nat.zero_add]; rfl
  | succ a ih =>
      rw [show a + 1 + b = (a + b) + 1 from by omega]
      rw [show redoN st ((a + b) + 1) = redoN (st.redo).1 (a + b) from rfl]
      rw [show redoN st (a + 1) = redoN (st.redo).1 a from rfl]
      exact ih (st.redo).1

theorem undo_phase {s : Str} : ∀ (recs : List RopeChange) (st : RopeModel),
    goodNode st.root = true → st.historyPaused = false → st.undoStack = recs →
    Chain s recs (toText st.root) →
    goodNode (undoN st recs.length).root = true ∧
    toText (undoN st recs.length).root = s ∧
    (undoN st recs.length).historyPaused = false ∧
    (undoN st recs.length).undoStack = [] ∧
    (undoN st recs.length).redoStack = recs.reverse ++ st.redoStack ∧
    (undoN st recs.length).cursorOffset
      = (match recs with | [] => st.cursorOffset | _ :: _ => 0) := by
  intro recs
  induction recs with
  | nil =>
      intro st hg hp hstack hchain
      exact ⟨hg, hchain, hp, hstack, by simp [undoN], rfl⟩
  | cons rec rest ih =>
      intro st hg hp hstack hchain
      rcases hchain with ⟨dPrev, hv, hstep, hbot, hch⟩
      rcases undo_step hg hstack hv hstep with ⟨g1, t1, c1, p1, u1, r1⟩
      rw [show (rec :: rest).length = rest.length + 1 from rfl]
      rw [show undoN st (rest.length + 1) = undoN (st.undo).1 rest.length from rfl]
      have hch2 : Chain s rest (toText ((st.undo).1).root) := by
        rw [t1]
        exact hch
      rcases ih (st.undo).1 g1 p1 u1 hch2 with ⟨G, T, P, U, R, C⟩
      refine ⟨G, T, P, U, ?_, ?_⟩
      · rw [R, r1, List.reverse_cons, List.append_assoc, List.singleton_append]
      · rw [C]
        cases rest with
        | nil => exact c1.trans (hbot rfl)
        | cons r2 rest2 => rfl

theorem redo_phase : ∀ (recs : List RopeChange) (st : RopeModel) (dN : Str),
    goodNode st.root = true → st.historyPaused = false → st.redoStack = recs →
    FChain (toText st.root) recs dN →
    goodNode (redoN st recs.length).root = true ∧
    toText (redoN st recs.length).root = dN ∧
    (redoN st recs.length).historyPaused = false ∧
    (redoN st recs.length).redoStack = [] ∧
    (redoN st recs.length).undoStack = recs.reverse ++ st.undoStack ∧
    (redoN st recs.length).cursorOffset
      = (match recs.getLast? with
         | none => st.cursorOffset
         | some rec => rec.cursorOffsetAfter) := by
  intro recs
  induction recs with
  | nil =>
      intro st dN hg hp hstack hf
      exact ⟨hg, hf.symm, hp, hstack, by simp [redoN], rfl⟩
  | cons rec rest ih =>
      intro st dN hg hp hstack hf
      rcases hf with ⟨hv, hf2⟩
      rcases redo_step hg hstack hv.1 with ⟨g1, t1, c1, p1, r1, u1⟩
      rw [show (rec :: rest).length = rest.length + 1 from rfl]
      rw [show redoN st (rest.length + 1) = redoN (st.redo).1 rest.length from rfl]
      have hf3 : FChain (toText ((st.redo).1).root) rest dN := by
        rw [t1]
        exact hf2
      rcases ih (st.redo).1 dN g1 p1 r1 hf3 with ⟨G, T, P, R, U, C⟩
      refine ⟨G, T, P, R, ?_, ?_⟩
      · rw [U, u1, List.reverse_cons, List.append_assoc, List.singleton_append]
      · rw [C]
        cases rest with
        | nil => exact c1
        | cons r2 rest2 =>
            rw [List.getLast?_cons_cons]
            cases hL : (r2 :: rest2).getLast? with
            | none => exact absurd (List.getLast?_eq_none_iff.mp hL) (by simp)
            | some rl => rfl

/-- A user edit: a public `insert` or `delete` call. -/
inductive Edit where
  | ins (line char : Int) (text : Str)
  | del (line char count : Int)
deriving Repr, DecidableEq

/-- Apply one user edit (discarding the emitted events). -/
def applyEdit (st : RopeModel) : Edit → RopeModel
  | .ins l c t => (st.insert l c t).1
  | .del l c n => (st.delete l c n).1

/-- Apply a sequence of user edits in order. -/
def applyEdits (st : RopeModel) : List Edit → RopeModel
  | [] => st
  | e :: es => applyEdits (st.applyEdit e) es

/-- The editing-phase invariant over a buffer constructed from `s`: the
rope is well formed, history recording is live, the redo stack is empty,
the undo stack chains the current document back to `s` (with the oldest
record made at cursor offset 0), and the cursor offset agrees with the
newest record. -/
def EInv (s : Str) (st : RopeModel) : Prop :=
  goodNode st.root = true ∧ st.historyPaused = false ∧ st.redoStack = [] ∧
  Chain s st.undoStack (toText st.root) ∧
  (match st.undoStack with
   | [] => st.cursorOffset = 0
   | rec :: _ => st.cursorOffset = rec.cursorOffsetAfter)

theorem toText_ofText (s : Str) :
    toText (ofText s).root = s ∧ goodNode (ofText s).root = true := by
  rw [ofText]
  by_cases hs : s.isEmpty
  · rw [if_pos hs]
    have : s = [] := List.isEmpty_iff.mp hs
    subst this
    exact ⟨rfl, goodLeaf_emptyLeaf⟩
  · rw [if_neg hs]
    exact ⟨(fromText_spec s).2, (fromText_spec s).1⟩

theorem EInv_ofText (s : Str) : EInv s (ofText s) := by
  refine ⟨(toText_ofText s).2, rfl, rfl, ?_, rfl⟩
  show Chain s [] (toText (ofText s).root)
  exact (toText_ofText s).1

theorem EInv_applyEdit {s : Str} {st : RopeModel} (hI : EInv s st) (e : Edit) :
    EInv s (st.applyEdit e) ∧
    (st.applyEdit e).undoStack.length ≤ st.undoStack.length + 1 := by
  obtain ⟨hg, hp, hr, hch, hcur⟩ := hI
  cases e with
  | ins l c t =>
      rw [applyEdit, insert]
      by_cases ht : t.length = 0
      · have ht0 : t = [] := List.eq_nil_of_length_eq_zero ht
        subst ht0
        rw [applyInsert_empty]
        refine ⟨⟨hg, hp, hr, hch, hcur⟩, ?_⟩
        dsimp only
        omega
      · have hcond : (true && !st.historyPaused) = true := by rw [hp]; rfl
        rcases @applyInsert_spec st (st.cursorToOffset ⟨l, c⟩) t hg ht true st.getCursor
          with ⟨G, T, Coff, P⟩
        rcases @applyInsert_record st (st.cursorToOffset ⟨l, c⟩) t true st.getCursor
          hg ht hcond with ⟨ca, cob, hstk, hcb0, hrd⟩
        refine ⟨⟨G, by rw [P]; exact hp, hrd, ?_, ?_⟩, ?_⟩
        · rw [hstk]
          refine ⟨toText st.root, ⟨?_, ?_⟩, ?_, ?_, hch⟩
          · intro h0
            exact ht (by rw [show t = [] from h0]; rfl)
          · show st.cursorToOffset ⟨l, c⟩ ≤ (toText st.root).length
            exact cursorToOffset_le hg ⟨l, c⟩
          · show toText ((st.applyInsert (st.cursorToOffset ⟨l, c⟩) t true st.getCursor).1).root
              = doInsert (toText st.root) (st.cursorToOffset ⟨l, c⟩) t
            rw [T]
            rfl
          · intro hrest
            show cob = 0
            apply hcb0
            have h0 : st.cursorOffset = 0 := by
              rw [hrest] at hcur
              exact hcur
            rw [getCursor, h0]
            exact offsetToCursor_zero hg
        · rw [hstk]
          exact Coff
        · rw [hstk]
          simp
  | del l c n =>
      rw [applyEdit, delete]
      by_cases hn : n ≤ 0
      · rw [if_pos hn]
        refine ⟨⟨hg, hp, hr, hch, hcur⟩, ?_⟩
        dsimp only
        omega
      · rw [if_neg hn]
        dsimp only
        by_cases hrem : (st.sliceText ((max 0 ((st.cursorToOffset ⟨l, c⟩ : Int) - n)).toNat)
            (st.cursorToOffset ⟨l, c⟩)).length = 0
        · rw [if_pos hrem]
          refine ⟨⟨hg, hp, hr, hch, hcur⟩, ?_⟩
          dsimp only
          omega
        · rw [if_neg hrem]
          have hcond : (true && !st.historyPaused) = true := by rw [hp]; rfl
          have he_le : st.cursorToOffset ⟨l, c⟩ ≤ (toText st.root).length :=
            cursorToOffset_le hg ⟨l, c⟩
          have hs0_le : (max 0 ((st.cursorToOffset ⟨l, c⟩ : Int) - n)).toNat
              ≤ st.cursorToOffset ⟨l, c⟩ := by omega
          have hslice : st.sliceText ((max 0 ((st.cursorToOffset ⟨l, c⟩ : Int) - n)).toNat)
              (st.cursorToOffset ⟨l, c⟩)
              = sliceSpan (toText st.root)
                  ((max 0 ((st.cursorToOffset ⟨l, c⟩ : Int) - n)).toNat)
                  (st.cursorToOffset ⟨l, c⟩) :=
            sliceText_eq_sliceSpan hg hs0_le he_le
          have hslen : (st.sliceText ((max 0 ((st.cursorToOffset ⟨l, c⟩ : Int) - n)).toNat)
              (st.cursorToOffset ⟨l, c⟩)).length
              = st.cursorToOffset ⟨l, c⟩
                - (max 0 ((st.cursorToOffset ⟨l, c⟩ : Int) - n)).toNat := by
            rw [hslice]
            exact sliceSpan_length_of_le he_le
          rcases @applyDelete_spec st ((max 0 ((st.cursorToOffset ⟨l, c⟩ : Int) - n)).toNat)
            (st.sliceText ((max 0 ((st.cursorToOffset ⟨l, c⟩ : Int) - n)).toNat)
              (st.cursorToOffset ⟨l, c⟩)) hg hrem true st.getCursor
            with ⟨G, T, Coff, P⟩
          rcases @applyDelete_record st ((max 0 ((st.cursorToOffset ⟨l, c⟩ : Int) - n)).toNat)
            (st.sliceText ((max 0 ((st.cursorToOffset ⟨l, c⟩ : Int) - n)).toNat)
              (st.cursorToOffset ⟨l, c⟩)) true st.getCursor hg hrem hcond
            with ⟨ca, cob, hstk, hcb0, hrd⟩
          refine ⟨⟨G, by rw [P]; exact hp, hrd, ?_, ?_⟩, ?_⟩
          · rw [hstk]
            refine ⟨toText st.root, ⟨?_, ?_, ?_⟩, ?_, ?_, hch⟩
            · intro h0
              exact hrem (by
                rw [show st.sliceText ((max 0 ((st.cursorToOffset ⟨l, c⟩ : Int) - n)).toNat)
                    (st.cursorToOffset ⟨l, c⟩) = [] from h0]
                rfl)
            · show (max 0 ((st.cursorToOffset ⟨l, c⟩ : Int) - n)).toNat
                  + (st.sliceText ((max 0 ((st.cursorToOffset ⟨l, c⟩ : Int) - n)).toNat)
                      (st.cursorToOffset ⟨l, c⟩)).length ≤ (toText st.root).length
              rw [hslen]
              omega
            · show st.sliceText ((max 0 ((st.cursorToOffset ⟨l, c⟩ : Int) - n)).toNat)
                  (st.cursorToOffset ⟨l, c⟩)
                = sliceSpan (toText st.root)
                    ((max 0 ((st.cursorToOffset ⟨l, c⟩ : Int) - n)).toNat)
                    ((max 0 ((st.cursorToOffset ⟨l, c⟩ : Int) - n)).toNat
                      + (st.sliceText ((max 0 ((st.cursorToOffset ⟨l, c⟩ : Int) - n)).toNat)
                          (st.cursorToOffset ⟨l, c⟩)).length)
              rw [hslen, show (max 0 ((st.cursorToOffset ⟨l, c⟩ : Int) - n)).toNat
                  + (st.cursorToOffset ⟨l, c⟩
                      - (max 0 ((st.cursorToOffset ⟨l, c⟩ : Int) - n)).toNat)
                  = st.cursorToOffset ⟨l, c⟩ from by omega]
              exact hslice
            · show toText ((st.applyDelete
                  ((max 0 ((st.cursorToOffset ⟨l, c⟩ : Int) - n)).toNat)
                  (st.sliceText ((max 0 ((st.cursorToOffset ⟨l, c⟩ : Int) - n)).toNat)
                    (st.cursorToOffset ⟨l, c⟩)) true st.getCursor).1).root
                = doDelete (toText st.root)
                    ((max 0 ((st.cursorToOffset ⟨l, c⟩ : Int) - n)).toNat)
                    (st.sliceText ((max 0 ((st.cursorToOffset ⟨l, c⟩ : Int) - n)).toNat)
                      (st.cursorToOffset ⟨l, c⟩)).length
              rw [T]
              rfl
            · intro hrest
              show cob = 0
              apply hcb0
              have h0 : st.cursorOffset = 0 := by
                rw [hrest] at hcur
                exact hcur
              rw [getCursor, h0]
              exact offsetToCursor_zero hg
          · rw [hstk]
            exact Coff
          · rw [hstk]
            simp

theorem EInv_applyEdits {s : Str} : ∀ (es : List Edit) (st : RopeModel), EInv s st →
    EInv s (st.applyEdits es) ∧
    (st.applyEdits es).undoStack.length ≤ st.undoStack.length + es.length := by
  intro es
  induction es with
  | nil => intro st hI; exact ⟨hI, by simp [applyEdits]⟩
  | cons e es ih =>
      intro st hI
      rcases EInv_applyEdit hI e with ⟨h1, h2⟩
      rcases ih (st.applyEdit e) h1 with ⟨h3, h4⟩
      refine ⟨h3, ?_⟩
      simp only [applyEdits, List.length_cons] at *
      omega

theorem getCursor_eq_of {st1 st2 : RopeModel} (h1 : goodNode st1.root = true)
    (h2 : goodNode st2.root = true) (ht : toText st1.root = toText st2.root)
    (hc : st1.cursorOffset = st2.cursorOffset) : st1.getCursor = st2.getCursor := by
  rw [getCursor, getCursor, offsetToCursor_spec h1, offsetToCursor_spec h2, ht, hc]

theorem einv_undo_redo {s : Str} {stN : RopeModel} (hI : EInv s stN) {n : Nat}
    (hn : stN.undoStack.length ≤ n) :
    goodNode (undoN stN n).root = true ∧
    toText (undoN stN n).root = s ∧
    (undoN stN n).cursorOffset = 0 ∧
    goodNode (redoN (undoN stN n) n).root = true ∧
    toText (redoN (undoN stN n) n).root = toText stN.root ∧
    (redoN (undoN stN n) n).cursorOffset = stN.cursorOffset := by
  obtain ⟨hg, hp, hr, hch, hcur⟩ := hI
  obtain ⟨G1, T1, P1, U1, R1, C1v⟩ := undo_phase stN.undoStack stN hg hp rfl hch
  have hU : undoN stN n = undoN stN stN.undoStack.length := by
    rw [show n = stN.undoStack.length + (n - stN.undoStack.length) from by omega,
      undoN_add, undoN_of_empty U1]
  have hc0 : (undoN stN stN.undoStack.length).cursorOffset = 0 := by
    rw [C1v]
    cases hM2 : stN.undoStack with
    | nil =>
        rw [hM2] at hcur
        exact hcur
    | cons rec rest => rfl
  have hstackM : (undoN stN stN.undoStack.length).redoStack = stN.undoStack.reverse := by
    rw [R1, hr, List.append_nil]
  have hfc : FChain (toText (undoN stN stN.undoStack.length).root)
      stN.undoStack.reverse (toText stN.root) := by
    rw [T1]
    exact chain_to_fchain hch
  obtain ⟨G2, T2, P2, R2, U2, C2v⟩ := redo_phase stN.undoStack.reverse
    (undoN stN stN.undoStack.length) (toText stN.root) G1 P1 hstackM hfc
  have hlenrev : stN.undoStack.reverse.length = stN.undoStack.length := by simp
  rw [hlenrev] at G2 T2 P2 R2 U2 C2v
  have hR : redoN (undoN stN n) n
      = redoN (undoN stN stN.undoStack.length) stN.undoStack.length := by
    rw [hU]
    conv_lhs => rw [show n = stN.undoStack.length + (n - stN.undoStack.length) from by omega]
    rw [redoN_add]
    exact redoN_of_empty R2 _
  have hcr : (redoN (undoN stN stN.undoStack.length) stN.undoStack.length).cursorOffset
      = stN.cursorOffset := by
    rw [C2v, List.getLast?_reverse]
    cases hM2 : stN.undoStack with
    | nil =>
        rw [hM2] at hcur
        simp [undoN, hcur]
    | cons rec rest =>
        rw [hM2] at hcur
        simp only [List.head?_cons]
        exact hcur.symm
  rw [hR, hU]
  exact ⟨G1, T1, hc0, G2, T2, hcr⟩

theorem offsetToCursor_congr {st1 st2 : RopeModel} (hroot : st1.root = st2.root) (o : Nat) :
    st1.offsetToCursor o = st2.offsetToCursor o := by
  rcases st1 with ⟨r1, c1, lc1, u1, d1, p1⟩
  rcases st2 with ⟨r2, c2, lc2, u2, d2, p2⟩
  cases hroot
  rfl

theorem moveCursorDown_spec {st : RopeModel} (h : goodNode st.root = true)
    (hdown : st.getCursor.line + 1 < st.getLineCount) :
    ((st.moveCursorDown).1).lastChar = st.lastChar ∧
    ((st.moveCursorDown).1).getCursor
      = ⟨st.getCursor.line + 1,
         min st.lastChar (st.getLineLength (st.getCursor.line + 1))⟩ := by
  have hlc := getLineCount_eq h
  have hi1 : st.getCursor.line + 1 ≤ (newlinePositions (toText st.root)).length := by
    omega
  have hLL := getLineLength_spec h hi1
  have htc : min st.lastChar (st.getLineLength (st.getCursor.line + 1))
      ≤ lineEndA (toText st.root) (st.getCursor.line + 1)
        - lineStartA (toText st.root) (st.getCursor.line + 1) := by
    rw [← hLL]
    omega
  rw [moveCursorDown,
    if_neg (show ¬ (st.getLineCount - 1 ≤ st.getCursor.line) from by omega)]
  dsimp only
  rw [setCursor, clampCursor_valid h hi1 htc]
  dsimp only
  refine ⟨rfl, ?_⟩
  rw [getCursor]
  dsimp only
  rw [show CursorPosition.toInput
      ⟨st.getCursor.line + 1, min st.lastChar (st.getLineLength (st.getCursor.line + 1))⟩
      = ⟨((st.getCursor.line + 1 : Nat) : Int),
         ((min st.lastChar (st.getLineLength (st.getCursor.line + 1)) : Nat) : Int)⟩
      from rfl]
  rw [cursorToOffset_valid h hi1 htc]
  exact Eq.trans (offsetToCursor_congr rfl _) (offsetToCursor_valid h hi1 htc)

theorem getCursor_line_le {st : RopeModel} (h : goodNode st.root = true) :
    st.getCursor.line ≤ (newlinePositions (toText st.root)).length := by
  rw [getCursor, offsetToCursor_spec h]
  dsimp only
  rw [lineOfOffset]
  exact length_takeWhile_le _ _

theorem moveCursorUp_spec {st : RopeModel} (h : goodNode st.root = true)
    (hup : 0 < st.getCursor.line) :
    ((st.moveCursorUp).1).lastChar = st.lastChar ∧
    ((st.moveCursorUp).1).getCursor
      = ⟨st.getCursor.line - 1,
         min st.lastChar (st.getLineLength (st.getCursor.line - 1))⟩ := by
  have hcl := getCursor_line_le h
  have hi1 : st.getCursor.line - 1 ≤ (newlinePositions (toText st.root)).length := by
    omega
  have hLL := getLineLength_spec h hi1
  have htc : min st.lastChar (st.getLineLength (st.getCursor.line - 1))
      ≤ lineEndA (toText st.root) (st.getCursor.line - 1)
        - lineStartA (toText st.root) (st.getCursor.line - 1) := by
    rw [← hLL]
    omega
  rw [moveCursorUp,
    if_neg (show ¬ (st.getCursor.line = 0) from by omega)]
  dsimp only
  rw [setCursor, clampCursor_valid h hi1 htc]
  dsimp only
  refine ⟨rfl, ?_⟩
  rw [getCursor]
  dsimp only
  rw [show CursorPosition.toInput
      ⟨st.getCursor.line - 1, min st.lastChar (st.getLineLength (st.getCursor.line - 1))⟩
      = ⟨((st.getCursor.line - 1 : Nat) : Int),
         ((min st.lastChar (st.getLineLength (st.getCursor.line - 1)) : Nat) : Int)⟩
      from rfl]
  rw [cursorToOffset_valid h hi1 htc]
  exact Eq.trans (offsetToCursor_congr rfl _) (offsetToCursor_valid h hi1 htc)

/-! ## Claim theorems -/

/-- C1 (corrected): starting from a freshly constructed buffer, applying any
sequence of public insert/delete edits and then undoing them all restores
both the document text and the cursor of the fresh buffer, and redoing them
all restores the fully edited document text and cursor. (The original claim,
that undo restores the cursor of an arbitrary pre-edit state, is refuted by
the counterexample below: cursorOffsetBefore is computed from cursorBefore
only after the tree mutation, against the post-edit document.) -/
theorem undo_redo_symmetry_fresh (s : Str) (es : List Edit) :
    (undoN (applyEdits (ofText s) es) es.length).getAll = (ofText s).getAll ∧
    (undoN (applyEdits (ofText s) es) es.length).getCursor = (ofText s).getCursor ∧
    (redoN (undoN (applyEdits (ofText s) es) es.length) es.length).getAll
        = (applyEdits (ofText s) es).getAll ∧
    (redoN (undoN (applyEdits (ofText s) es) es.length) es.length).getCursor
        = (applyEdits (ofText s) es).getCursor := by
  obtain ⟨hI, hlen⟩ := EInv_applyEdits es (ofText s) (EInv_ofText s)
  have h0 : (ofText s).undoStack.length = 0 := rfl
  have hlen2 : ((ofText s).applyEdits es).undoStack.length ≤ es.length := by omega
  obtain ⟨g1, t1, c1, g2, t2, c2⟩ := einv_undo_redo hI hlen2
  obtain ⟨hgN, -, -, -, -⟩ := hI
  have hg0 := (toText_ofText s).2
  refine ⟨?_, ?_, ?_, ?_⟩
  · rw [getAll_eq g1, getAll_eq hg0, t1, (toText_ofText s).1]
  · rw [getCursor, getCursor, c1, show (ofText s).cursorOffset = 0 from rfl,
      offsetToCursor_zero g1, offsetToCursor_zero hg0]
  · rw [getAll_eq g2, getAll_eq hgN, t2]
  · exact getCursor_eq_of g2 hgN t2 c2

/-- C1 counterexample: on the buffer "hello" with the cursor moved to
(0, 5), inserting a newline at (0, 0) and undoing it restores the text but
moves the cursor to (0, 0) instead of back to (0, 5): the recorded
cursorOffsetBefore is cursorToOffset(cursorBefore) computed after the tree
mutation, where line 0 has length 0. -/
theorem undo_cursor_counterexample :
    ((((RopeModel.ofText "hello".toList).setCursor ⟨0, 5⟩).1).getCursor
        = ⟨0, 5⟩) ∧
    (((((RopeModel.ofText "hello".toList).setCursor
          ⟨0, 5⟩).1.insert 0 0 "\n".toList).1.undo).1).getAll = "hello".toList ∧
    (((((RopeModel.ofText "hello".toList).setCursor
          ⟨0, 5⟩).1.insert 0 0 "\n".toList).1.undo).1).getCursor = ⟨0, 0⟩ ∧
    (((((RopeModel.ofText "hello".toList).setCursor
          ⟨0, 5⟩).1.insert 0 0 "\n".toList).1.undo).1).getCursor
        ≠ ((((RopeModel.ofText "hello".toList).setCursor ⟨0, 5⟩).1).getCursor) := by
  decide

/-- C2: constructing a rope from any string and reading it back with
getAll returns exactly that string. -/
theorem getAll_roundtrip (s : Str) : (ofText s).getAll = s := by
  rw [getAll_eq (toText_ofText s).2, (toText_ofText s).1]

/-- C3: insert(line, char, text) on a well-formed buffer splices text at
offset cursorToOffset(line, char) and leaves the cursor offset right after
the inserted text; concretely, on "hello\nworld", insert(0, 5, "\nrope")
yields "hello\nrope\nworld" and a following delete(1, 4, 2) yields
"hello\nro\nworld". -/
theorem insert_semantics :
    (∀ (st : RopeModel) (line char : Int) (text : Str),
      goodNode st.root = true → text ≠ [] →
      ((st.insert line char text).1).getAll
          = (st.getAll).take (st.cursorToOffset ⟨line, char⟩) ++ text
              ++ (st.getAll).drop (st.cursorToOffset ⟨line, char⟩) ∧
      ((st.insert line char text).1).cursorOffset
          = st.cursorToOffset ⟨line, char⟩ + text.length) ∧
    (((ofText "hello\nworld".toList).insert 0 5 "\nrope".toList).1).getAll
        = "hello\nrope\nworld".toList ∧
    (((((ofText "hello\nworld".toList).insert 0 5
          "\nrope".toList).1).delete 1 4 2).1).getAll
        = "hello\nro\nworld".toList := by
  refine ⟨?_, by decide, by decide⟩
  intro st line char text h ht
  have htl : text.length ≠ 0 := by
    intro h0
    exact ht (List.eq_nil_of_length_eq_zero h0)
  have hins : st.insert line char text
      = st.applyInsert (st.cursorToOffset ⟨line, char⟩) text true st.getCursor := rfl
  rw [hins]
  obtain ⟨g, t, c, -⟩ :=
    @applyInsert_spec st (st.cursorToOffset ⟨line, char⟩) text h htl true st.getCursor
  constructor
  · rw [getAll_eq g, getAll_eq h, t]
  · exact c

/-- C3 witness: the general part of the claim instantiated on the buffer
"ab" with insert(0, 1, "X"). -/
theorem insert_semantics_witness :
    goodNode (ofText "ab".toList).root = true ∧
    ("X".toList ≠ ([] : Str)) ∧
    ((((ofText "ab".toList).insert 0 1 "X".toList).1).getAll
        = (((ofText "ab".toList).getAll).take
              ((ofText "ab".toList).cursorToOffset ⟨0, 1⟩))
            ++ "X".toList
            ++ (((ofText "ab".toList).getAll).drop
                  ((ofText "ab".toList).cursorToOffset ⟨0, 1⟩)) ∧
     (((ofText "ab".toList).insert 0 1 "X".toList).1).cursorOffset
        = (ofText "ab".toList).cursorToOffset ⟨0, 1⟩ + "X".toList.length) :=
  ⟨by decide, by decide,
    insert_semantics.1 (ofText "ab".toList) 0 1 "X".toList (by decide) (by decide)⟩

/-- C5: for any well-formed buffer and any offset within the document,
cursorToOffset(offsetToCursor(offset)) = offset. -/
theorem cursor_offset_roundtrip (st : RopeModel) (h : goodNode st.root = true)
    (o : Nat) (ho : o ≤ st.getLength) :
    st.cursorToOffset (st.offsetToCursor o).toInput = o :=
  cursorToOffset_offsetToCursor h (by rw [← getLength_eq h]; exact ho)

/-- C5 witness: the round trip at offset 2 of the buffer "a\nb". -/
theorem cursor_offset_roundtrip_witness :
    goodNode (ofText "a\nb".toList).root = true ∧
    2 ≤ (ofText "a\nb".toList).getLength ∧
    (ofText "a\nb".toList).cursorToOffset
        ((ofText "a\nb".toList).offsetToCursor 2).toInput = 2 :=
  ⟨by decide, by decide,
    cursor_offset_roundtrip (ofText "a\nb".toList) (by decide) 2 (by decide)⟩

/-- C6: vertical cursor motion uses the sticky column: moveCursorDown and
moveCursorUp land on min(lastChar, target line length) without overwriting
lastChar; concretely, with line lengths 10, 1, 10 and the cursor at
(0, 10), two downs visit (1, 1) then (2, 10). -/
theorem vertical_motion_sticky :
    (∀ st : RopeModel, goodNode st.root = true →
      (st.getCursor.line + 1 < st.getLineCount →
        ((st.moveCursorDown).1).lastChar = st.lastChar ∧
        ((st.moveCursorDown).1).getCursor
          = ⟨st.getCursor.line + 1,
             min st.lastChar (st.getLineLength (st.getCursor.line + 1))⟩) ∧
      (0 < st.getCursor.line →
        ((st.moveCursorUp).1).lastChar = st.lastChar ∧
        ((st.moveCursorUp).1).getCursor
          = ⟨st.getCursor.line - 1,
             min st.lastChar (st.getLineLength (st.getCursor.line - 1))⟩)) ∧
    ((((RopeModel.ofText "aaaaaaaaaa\nb\ncccccccccc".toList).setCursor
        ⟨0, 10⟩).1).getCursor = ⟨0, 10⟩ ∧
     ((((RopeModel.ofText "aaaaaaaaaa\nb\ncccccccccc".toList).setCursor
        ⟨0, 10⟩).1.moveCursorDown).1).getCursor = ⟨1, 1⟩ ∧
     ((((RopeModel.ofText "aaaaaaaaaa\nb\ncccccccccc".toList).setCursor
        ⟨0, 10⟩).1.moveCursorDown).1).lastChar = 10 ∧
     (((((RopeModel.ofText "aaaaaaaaaa\nb\ncccccccccc".toList).setCursor
        ⟨0, 10⟩).1.moveCursorDown).1.moveCursorDown).1).getCursor = ⟨2, 10⟩) := by
  exact ⟨fun st h => ⟨fun hd => moveCursorDown_spec h hd,
    fun hu => moveCursorUp_spec h hu⟩, by decide⟩

/-- C6 witness: the general part of the claim instantiated on the fresh
buffer "ab\ncd" (cursor (0, 0), lastChar 0), moving down. -/
theorem vertical_motion_sticky_witness :
    goodNode (ofText "ab\ncd".toList).root = true ∧
    (ofText "ab\ncd".toList).getCursor.line + 1
        < (ofText "ab\ncd".toList).getLineCount ∧
    ((((ofText "ab\ncd".toList).moveCursorDown).1).lastChar
        = (ofText "ab\ncd".toList).lastChar ∧
     (((ofText "ab\ncd".toList).moveCursorDown).1).getCursor
        = ⟨(ofText "ab\ncd".toList).getCursor.line + 1,
           min (ofText "ab\ncd".toList).lastChar
             ((ofText "ab\ncd".toList).getLineLength
               ((ofText "ab\ncd".toList).getCursor.line + 1))⟩) :=
  ⟨by decide, by decide,
    (vertical_motion_sticky.1 (ofText "ab\ncd".toList) (by decide)).1 (by decide)⟩

theorem applyInsert_good (st : RopeModel) (h : goodNode st.root = true)
    (offset : Nat) (text : Str) (rh : Bool) (cb : CursorPosition) :
    goodNode ((st.applyInsert offset text rh cb).1).root = true := by
  by_cases ht : text.length = 0
  · rw [applyInsert, if_pos ht]
    exact h
  · exact (applyInsert_spec h ht rh cb).1

theorem applyDelete_good (st : RopeModel) (h : goodNode st.root = true)
    (offset : Nat) (text : Str) (rh : Bool) (cb : CursorPosition) :
    goodNode ((st.applyDelete offset text rh cb).1).root = true := by
  by_cases ht : text.length = 0
  · rw [applyDelete, if_pos ht]
    exact h
  · exact (applyDelete_spec h ht rh cb).1

theorem undo_good {st : RopeModel} (h : goodNode st.root = true) :
    goodNode ((st.undo).1).root = true := by
  rw [undo]
  cases hs : st.undoStack with
  | nil => exact h
  | cons change rest =>
      obtain ⟨k, off, tx, cb, ca, cob, coa⟩ := change
      cases k with
      | insert =>
          exact applyDelete_good { st with undoStack := rest, historyPaused := true }
            h off tx false cb
      | delete =>
          exact applyInsert_good { st with undoStack := rest, historyPaused := true }
            h off tx false cb

theorem redo_good {st : RopeModel} (h : goodNode st.root = true) :
    goodNode ((st.redo).1).root = true := by
  rw [redo]
  cases hs : st.redoStack with
  | nil => exact h
  | cons change rest =>
      obtain ⟨k, off, tx, cb, ca, cob, coa⟩ := change
      cases k with
      | insert =>
          exact applyInsert_good { st with redoStack := rest, historyPaused := true }
            h off tx false ca
      | delete =>
          exact applyDelete_good { st with redoStack := rest, historyPaused := true }
            h off tx false ca

/-- C4: delete(line, char, count) on a well-formed buffer (outside
undo/redo) computes end = cursorToOffset(line, char) and
start = max(0, end - count), removes exactly [start, end), moves the
cursor to start, and pushes a Delete change holding the actually-removed
text; when count is not positive, or nothing would be removed, the call
leaves the state untouched and emits no events. -/
theorem delete_semantics :
    (∀ (st : RopeModel) (line char count : Int) (e s0 : Nat),
      goodNode st.root = true → st.historyPaused = false →
      0 < count →
      e = st.cursorToOffset ⟨line, char⟩ →
      s0 = (max 0 ((e : Int) - count)).toNat →
      st.sliceText s0 e ≠ [] →
      ((st.delete line char count).1).getAll
          = (st.getAll).take s0 ++ (st.getAll).drop e ∧
      ((st.delete line char count).1).cursorOffset = s0 ∧
      ∃ ca cob, ((st.delete line char count).1).undoStack
          = ⟨.delete, s0, st.sliceText s0 e, st.getCursor, ca, cob, s0⟩
              :: st.undoStack) ∧
    (∀ (st : RopeModel) (line char count : Int) (e s0 : Nat),
      0 < count →
      e = st.cursorToOffset ⟨line, char⟩ →
      s0 = (max 0 ((e : Int) - count)).toNat →
      st.sliceText s0 e = [] →
      st.delete line char count = (st, [])) ∧
    (∀ (st : RopeModel) (line char count : Int), count ≤ 0 →
      st.delete line char count = (st, [])) := by
  refine ⟨?_, ?_, ?_⟩
  · intro st line char count e s0 h hp hcount he hs0 hrm
    subst he
    subst hs0
    have hel : st.cursorToOffset ⟨line, char⟩ ≤ (toText st.root).length :=
      cursorToOffset_le h _
    have hs0e : (max 0 ((st.cursorToOffset ⟨line, char⟩ : Int) - count)).toNat
        ≤ st.cursorToOffset ⟨line, char⟩ := by omega
    have hslice := sliceText_eq_sliceSpan h hs0e hel
    have hrlen : (st.sliceText
        (max 0 ((st.cursorToOffset ⟨line, char⟩ : Int) - count)).toNat
        (st.cursorToOffset ⟨line, char⟩)).length
        = st.cursorToOffset ⟨line, char⟩
          - (max 0 ((st.cursorToOffset ⟨line, char⟩ : Int) - count)).toNat := by
      rw [hslice]
      exact sliceSpan_length_of_le hel
    have hrlen0 : (st.sliceText
        (max 0 ((st.cursorToOffset ⟨line, char⟩ : Int) - count)).toNat
        (st.cursorToOffset ⟨line, char⟩)).length ≠ 0 := by
      intro h0
      exact hrm (List.eq_nil_of_length_eq_zero h0)
    have hs0add : (max 0 ((st.cursorToOffset ⟨line, char⟩ : Int) - count)).toNat
        + (st.sliceText
            (max 0 ((st.cursorToOffset ⟨line, char⟩ : Int) - count)).toNat
            (st.cursorToOffset ⟨line, char⟩)).length
        = st.cursorToOffset ⟨line, char⟩ := by
      omega
    have hdel : st.delete line char count
        = st.applyDelete
            (max 0 ((st.cursorToOffset ⟨line, char⟩ : Int) - count)).toNat
            (st.sliceText
              (max 0 ((st.cursorToOffset ⟨line, char⟩ : Int) - count)).toNat
              (st.cursorToOffset ⟨line, char⟩)) true st.getCursor := by
      rw [delete, if_neg (show ¬ count ≤ 0 from by omega)]
      dsimp only
      rw [if_neg hrlen0]
    obtain ⟨g, t, c, -⟩ := @applyDelete_spec st
      (max 0 ((st.cursorToOffset ⟨line, char⟩ : Int) - count)).toNat
      (st.sliceText (max 0 ((st.cursorToOffset ⟨line, char⟩ : Int) - count)).toNat
        (st.cursorToOffset ⟨line, char⟩)) h hrlen0 true st.getCursor
    obtain ⟨ca, cob, hstk, -, -⟩ := @applyDelete_record st
      (max 0 ((st.cursorToOffset ⟨line, char⟩ : Int) - count)).toNat
      (st.sliceText (max 0 ((st.cursorToOffset ⟨line, char⟩ : Int) - count)).toNat
        (st.cursorToOffset ⟨line, char⟩)) true st.getCursor h hrlen0
      (by rw [hp]; rfl)
    rw [hdel]
    refine ⟨?_, c, ⟨ca, cob, hstk⟩⟩
    rw [getAll_eq g, getAll_eq h, t, hs0add]
  · intro st line char count e s0 hcount he hs0 hrm
    subst he
    subst hs0
    rw [delete, if_neg (show ¬ count ≤ 0 from by omega)]
    dsimp only
    rw [hrm]
    rfl
  · intro st line char count hc
    rw [delete, if_pos hc]

/-- C4 witness: the main part of the claim instantiated on "abc" with
delete(0, 2, 1), where the end offset is 2 and the start offset is 1. -/
theorem delete_semantics_witness :
    goodNode (ofText "abc".toList).root = true ∧
    (ofText "abc".toList).historyPaused = false ∧
    (0 : Int) < 1 ∧
    (2 : Nat) = (ofText "abc".toList).cursorToOffset ⟨0, 2⟩ ∧
    (1 : Nat) = (max 0 (((2 : Nat) : Int) - 1)).toNat ∧
    (ofText "abc".toList).sliceText 1 2 ≠ [] ∧
    ((((ofText "abc".toList).delete 0 2 1).1).getAll
        = (((ofText "abc".toList).getAll).take 1)
            ++ (((ofText "abc".toList).getAll).drop 2) ∧
     (((ofText "abc".toList).delete 0 2 1).1).cursorOffset = 1 ∧
     ∃ ca cob, (((ofText "abc".toList).delete 0 2 1).1).undoStack
        = ⟨.delete, 1, (ofText "abc".toList).sliceText 1 2,
           (ofText "abc".toList).getCursor, ca, cob, 1⟩
            :: (ofText "abc".toList).undoStack) :=
  ⟨by decide, rfl, by decide, by decide, by decide, by decide,
    delete_semantics.1 (ofText "abc".toList) 0 2 1 2 1 (by decide) rfl
      (by decide) (by decide) (by decide) (by decide)⟩

/-- C7: the cached node metadata invariant (every leaf caches the exact
length, newline offsets and line count of its text, every internal node
caches the sum of its children's lengths and the combined line count)
holds after construction and is preserved by insert, delete, setAll, undo
and redo; and the cached newline list of a text is exactly the ascending
list of offsets of newline characters. -/
theorem metadata_invariant :
    (∀ s : Str, goodNode (ofText s).root = true) ∧
    (∀ (st : RopeModel) (line char : Int) (text : Str), goodNode st.root = true →
      goodNode ((st.insert line char text).1).root = true) ∧
    (∀ (st : RopeModel) (line char count : Int), goodNode st.root = true →
      goodNode ((st.delete line char count).1).root = true) ∧
    (∀ (st : RopeModel) (content : Str),
      goodNode ((st.setAll content).1).root = true) ∧
    (∀ st : RopeModel, goodNode st.root = true →
      goodNode ((st.undo).1).root = true) ∧
    (∀ st : RopeModel, goodNode st.root = true →
      goodNode ((st.redo).1).root = true) ∧
    (∀ t : Str, List.Pairwise (· < ·) (newlinePositions t) ∧
      (∀ p : Nat, p ∈ newlinePositions t ↔ t[p]? = some '\n')) := by
  refine ⟨?_, ?_, ?_, ?_, ?_, ?_, ?_⟩
  · intro s
    exact (toText_ofText s).2
  · intro st line char text h
    exact applyInsert_good st h (st.cursorToOffset ⟨line, char⟩) text true st.getCursor
  · intro st line char count h
    by_cases hc : count ≤ 0
    · rw [delete, if_pos hc]
      exact h
    · rw [delete, if_neg hc]
      dsimp only
      by_cases hr : (st.sliceText
          (max 0 ((st.cursorToOffset ⟨line, char⟩ : Int) - count)).toNat
          (st.cursorToOffset ⟨line, char⟩)).length = 0
      · rw [if_pos hr]
        exact h
      · rw [if_neg hr]
        exact applyDelete_good st h
          (max 0 ((st.cursorToOffset ⟨line, char⟩ : Int) - count)).toNat
          (st.sliceText
            (max 0 ((st.cursorToOffset ⟨line, char⟩ : Int) - count)).toNat
            (st.cursorToOffset ⟨line, char⟩)) true st.getCursor
  · intro st content
    show goodNode (if content.isEmpty then RopeNode.leaf emptyLeaf
      else fromText content) = true
    by_cases hc : content.isEmpty
    · rw [if_pos hc]
      exact goodLeaf_emptyLeaf
    · rw [if_neg hc]
      exact (fromText_spec content).1
  · intro st h
    exact undo_good h
  · intro st h
    exact redo_good h
  · intro t
    exact ⟨newlinePositions_sorted t, fun p => mem_newlinePositions⟩

/-- C8: degenerate calls are silent no-ops that return the unchanged state
and no events: delete with a non-positive count, delete that would remove
nothing, insert of the empty string, undo with an empty undo stack, and
redo with an empty redo stack. -/
theorem degenerate_noops :
    (∀ (st : RopeModel) (line char count : Int), count ≤ 0 →
      st.delete line char count = (st, [])) ∧
    (∀ (st : RopeModel) (line char count : Int), 0 < count →
      st.sliceText (max 0 ((st.cursorToOffset ⟨line, char⟩ : Int) - count)).toNat
          (st.cursorToOffset ⟨line, char⟩) = [] →
      st.delete line char count = (st, [])) ∧
    (∀ (st : RopeModel) (line char : Int), st.insert line char [] = (st, [])) ∧
    (∀ st : RopeModel, st.undoStack = [] → st.undo = (st, [])) ∧
    (∀ st : RopeModel, st.redoStack = [] → st.redo = (st, [])) := by
  refine ⟨?_, ?_, ?_, ?_, ?_⟩
  · intro st line char count hc
    rw [delete, if_pos hc]
  · intro st line char count hc hrm
    rw [delete, if_neg (show ¬ count ≤ 0 from by omega)]
    dsimp only
    rw [hrm]
    rfl
  · intro st line char
    exact applyInsert_empty true st.getCursor
  · intro st hs
    rw [undo, hs]
  · intro st hs
    rw [redo, hs]

/-- C8 witness: the no-op cases instantiated on the buffer "abc": a
negative-count delete and an undo with nothing to undo. -/
theorem degenerate_noops_witness :
    ((-1 : Int) ≤ 0 ∧ (ofText "abc".toList).delete 0 1 (-1)
        = (ofText "abc".toList, [])) ∧
    ((ofText "abc".toList).undoStack = [] ∧ (ofText "abc".toList).undo
        = (ofText "abc".toList, [])) :=
  ⟨⟨by decide, degenerate_noops.1 (ofText "abc".toList) 0 1 (-1) (by decide)⟩,
   ⟨rfl, degenerate_noops.2.2.2.1 (ofText "abc".toList) rfl⟩⟩

/-- C7 witness: the preservation parts of the claim instantiated on the
buffer "abc" with insert(0, 1, "X") and on its undo. -/
theorem metadata_invariant_witness :
    goodNode (ofText "abc".toList).root = true ∧
    goodNode (((ofText "abc".toList).insert 0 1 "X".toList).1).root = true ∧
    goodNode (((((ofText "abc".toList).insert 0 1 "X".toList).1).undo).1).root
        = true :=
  ⟨by decide,
   metadata_invariant.2.1 (ofText "abc".toList) 0 1 "X".toList (by decide),
   metadata_invariant.2.2.2.2.1 (((ofText "abc".toList).insert 0 1 "X".toList).1)
     (by decide)⟩

/-- Chunk bookkeeping: a chunk list is contiguous from `off` when every
chunk's start is the previous end and every end is start + text length. -/
def ChunksFrom : Nat → List (Str × Nat × Nat) → Prop
  | _, [] => True
  | off, c :: rest => c.2.1 = off ∧ c.2.2 = off + c.1.length ∧ ChunksFrom c.2.2 rest

theorem chunksFrom_append : ∀ (xs : List (Str × Nat × Nat)) (off k : Nat)
    (ys : List (Str × Nat × Nat)), ChunksFrom off xs → ChunksFrom k ys →
    k = off + ((xs.map (fun c => c.1)).flatten).length →
    ChunksFrom off (xs ++ ys) := by
  intro xs
  induction xs with
  | nil =>
      intro off k ys hx hy hk
      have hk0 : k = off := by simpa using hk
      subst hk0
      simpa using hy
  | cons c rest ih =>
      intro off k ys hx hy hk
      obtain ⟨h1, h2, h3⟩ := hx
      refine ⟨h1, h2, ?_⟩
      refine ih c.2.2 k ys h3 hy ?_
      simp only [List.map_cons, List.flatten_cons, List.length_append] at hk
      omega

theorem walkChunks_spec : ∀ (n : RopeNode), goodNode n = true → ∀ (off : Nat),
    (((walkChunks n off).map (fun c => c.1)).flatten = toText n) ∧
    ChunksFrom off (walkChunks n off) := by
  intro n
  induction n with
  | leaf l =>
      intro h off
      have hl : l.length = l.text.length := (goodLeaf_iff.mp h).1
      constructor
      · simp [walkChunks]
      · exact ⟨rfl, by rw [hl], trivial⟩
  | node a b len lns iha ihb =>
      intro h off
      rcases goodNode_node_iff.mp h with ⟨ha, hb, -, -⟩
      have hta : a.length = (toText a).length := length_eq_of_good ha
      obtain ⟨fa, ca⟩ := iha ha off
      obtain ⟨fb, cb⟩ := ihb hb (off + a.length)
      constructor
      · simp only [walkChunks, List.map_append, List.flatten_append, fa, fb, toText_node]
      · show ChunksFrom off (walkChunks a off ++ walkChunks b (off + a.length))
        refine chunksFrom_append _ off (off + a.length) _ ca cb ?_
        rw [fa, ← hta]

theorem chunksFrom_slice : ∀ (xs : List (Str × Nat × Nat)) (pre : Str),
    ChunksFrom pre.length xs →
    ∀ c ∈ xs, sliceSpan (pre ++ ((xs.map (fun d => d.1)).flatten)) c.2.1 c.2.2 = c.1 := by
  intro xs
  induction xs with
  | nil =>
      intro pre hc c hin
      simp at hin
  | cons d rest ih =>
      intro pre hc c hin
      obtain ⟨h1, h2, h3⟩ := hc
      rcases List.mem_cons.mp hin with rfl | hin2
      · simp only [List.map_cons, List.flatten_cons]
        rw [sliceSpan, h1, h2, drop_append_of_eq_length rfl]
        have hk : pre.length + c.1.length - pre.length = c.1.length := by omega
        rw [hk]
        exact take_append_of_eq_length rfl
      · have hlen : (pre ++ d.1).length = d.2.2 := by
          rw [List.length_append, h2]
        have hrec := ih (pre ++ d.1) (by rw [hlen]; exact h3) c hin2
        simp only [List.map_cons, List.flatten_cons]
        rw [show pre ++ (d.1 ++ ((rest.map (fun d => d.1)).flatten))
            = (pre ++ d.1) ++ ((rest.map (fun d => d.1)).flatten)
          from (List.append_assoc pre d.1 _).symm]
        exact hrec

/-- C9: forEachChunk visits every leaf in document order: the chunk texts
concatenate to the whole document, the reported start/end offsets tile the
document contiguously from 0, and each chunk equals the document slice at
its reported offsets. -/
theorem forEachChunk_complete (st : RopeModel) (h : goodNode st.root = true) :
    (((st.forEachChunk).map (fun c => c.1)).flatten = st.getAll) ∧
    ChunksFrom 0 st.forEachChunk ∧
    ∀ c ∈ st.forEachChunk, sliceSpan st.getAll c.2.1 c.2.2 = c.1 := by
  obtain ⟨hf, hc⟩ := walkChunks_spec st.root h 0
  have hga : st.getAll = toText st.root := getAll_eq h
  refine ⟨by rw [hga]; exact hf, hc, ?_⟩
  intro c hin
  have hsl := chunksFrom_slice (walkChunks st.root 0) [] hc c hin
  rw [hga, ← hf]
  simpa using hsl

/-- C9 witness: the claim instantiated on the buffer "abc". -/
theorem forEachChunk_complete_witness :
    goodNode (ofText "abc".toList).root = true ∧
    (((((ofText "abc".toList).forEachChunk).map (fun c => c.1)).flatten
        = (ofText "abc".toList).getAll) ∧
     ChunksFrom 0 ((ofText "abc".toList).forEachChunk) ∧
     ∀ c ∈ (ofText "abc".toList).forEachChunk,
       sliceSpan ((ofText "abc".toList).getAll) c.2.1 c.2.2 = c.1) :=
  ⟨by decide, forEachChunk_complete (ofText "abc".toList) (by decide)⟩

/-- Reference definition, following the spec's wording: the lines of a
document are the pieces obtained by splitting on every newline character
(like JS `text.split("\n")`), each without its terminating newline; the
empty document has the single empty line. -/
def splitLines : Str → List Str
  | [] => [[]]
  | c :: rest =>
      match splitLines rest with
      | [] => [[c]]
      | l :: ls => if c = '\n' then [] :: l :: ls else (c :: l) :: ls

theorem splitLines_ne_nil : ∀ t : Str, splitLines t ≠ [] := by
  intro t
  cases t with
  | nil => simp [splitLines]
  | cons c rest =>
      rw [splitLines]
      cases hsp : splitLines rest with
      | nil => simp
      | cons l ls =>
          by_cases hc : c = '\n' <;> simp [hc]

theorem nl_cons_newline (rest : Str) :
    newlinePositions ('\n' :: rest) = 0 :: (newlinePositions rest).map (· + 1) := by
  simp [newlinePositions]

theorem nl_cons_other {c : Char} (hc : ¬ c = '\n') (rest : Str) :
    newlinePositions (c :: rest) = (newlinePositions rest).map (· + 1) := by
  simp [newlinePositions, hc]

theorem splitLines_length : ∀ t : Str,
    (splitLines t).length = (newlinePositions t).length + 1 := by
  intro t
  induction t with
  | nil => rfl
  | cons c rest ih =>
      rw [splitLines]
      cases hsp : splitLines rest with
      | nil => exact absurd hsp (splitLines_ne_nil rest)
      | cons l ls =>
          have hlen := ih
          rw [hsp] at hlen
          dsimp only
          by_cases hc : c = '\n'
          · subst hc
            rw [nl_cons_newline, if_pos rfl]
            simp only [List.length_cons, List.length_map] at hlen ⊢
            omega
          · rw [if_neg hc, nl_cons_other hc]
            simp only [List.length_cons, List.length_map] at hlen ⊢
            omega

theorem sliceSpan_cons_succ (c : Char) (rest : Str) (a b : Nat) :
    sliceSpan (c :: rest) (a + 1) (b + 1) = sliceSpan rest a b := by
  simp only [sliceSpan, List.drop_succ_cons]
  congr 1
  omega

theorem sliceSpan_cons_zero (c : Char) (rest : Str) (e : Nat) :
    sliceSpan (c :: rest) 0 (e + 1) = c :: sliceSpan rest 0 e := by
  simp [sliceSpan]

theorem lineStartA_cons_newline (rest : Str) (j : Nat)
    (hj : j ≤ (newlinePositions rest).length) :
    lineStartA ('\n' :: rest) (j + 1) = lineStartA rest j + 1 := by
  rw [lineStartA, nl_cons_newline]
  cases j with
  | zero => simp [lineStartA]
  | succ k =>
      have hk : k < (newlinePositions rest).length := by omega
      rw [lineStartA]
      simp [List.getD_cons_succ, List.getD_eq_getElem?_getD, List.getElem?_map,
        List.getElem?_eq_getElem hk]

theorem lineEndA_cons_newline (rest : Str) (j : Nat)
    (hj : j ≤ (newlinePositions rest).length) :
    lineEndA ('\n' :: rest) (j + 1) = lineEndA rest j + 1 := by
  simp only [lineEndA, nl_cons_newline, List.length_cons, List.length_map]
  by_cases hlast : j = (newlinePositions rest).length
  · rw [if_pos (by omega), if_pos hlast]
  · rw [if_neg (by omega), if_neg hlast]
    have hk : j < (newlinePositions rest).length := by omega
    simp [List.getD_cons_succ, List.getD_eq_getElem?_getD, List.getElem?_map,
      List.getElem?_eq_getElem hk]

theorem lineEndA_cons_newline_zero (rest : Str) :
    lineEndA ('\n' :: rest) 0 = 0 := by
  simp only [lineEndA, nl_cons_newline, List.length_cons]
  rw [if_neg (by omega)]
  simp

theorem lineStartA_cons_other {c : Char} (hc : ¬ c = '\n') (rest : Str) (j : Nat)
    (hj : j + 1 ≤ (newlinePositions rest).length) :
    lineStartA (c :: rest) (j + 1) = lineStartA rest (j + 1) + 1 := by
  rw [lineStartA, lineStartA, nl_cons_other hc]
  have hk : j < (newlinePositions rest).length := by omega
  simp [List.getD_eq_getElem?_getD, List.getElem?_map, List.getElem?_eq_getElem hk]

theorem lineEndA_cons_other {c : Char} (hc : ¬ c = '\n') (rest : Str) (i : Nat)
    (hi : i ≤ (newlinePositions rest).length) :
    lineEndA (c :: rest) i = lineEndA rest i + 1 := by
  simp only [lineEndA, nl_cons_other hc, List.length_map, List.length_cons]
  by_cases hlast : i = (newlinePositions rest).length
  · rw [if_pos hlast, if_pos hlast]
  · rw [if_neg hlast, if_neg hlast]
    have hk : i < (newlinePositions rest).length := by omega
    simp [List.getD_eq_getElem?_getD, List.getElem?_map, List.getElem?_eq_getElem hk]

theorem splitLines_get : ∀ (t : Str) (i : Nat), i ≤ (newlinePositions t).length →
    (splitLines t)[i]? = some (sliceSpan t (lineStartA t i) (lineEndA t i)) := by
  intro t
  induction t with
  | nil =>
      intro i hi
      have hi0 : i = 0 := by
        simp only [newlinePositions, List.length_nil, Nat.le_zero] at hi
        exact hi
      subst hi0
      decide
  | cons c rest ih =>
      intro i hi
      rw [splitLines]
      cases hsp : splitLines rest with
      | nil => exact absurd hsp (splitLines_ne_nil rest)
      | cons l ls =>
          dsimp only
          by_cases hc : c = '\n'
          · subst hc
            rw [if_pos rfl]
            cases i with
            | zero =>
                rw [show lineStartA ('\n' :: rest) 0 = 0 from rfl,
                  lineEndA_cons_newline_zero, sliceSpan_zero_length]
                rfl
            | succ j =>
                have hj : j ≤ (newlinePositions rest).length := by
                  rw [nl_cons_newline] at hi
                  simp only [List.length_cons, List.length_map] at hi
                  omega
                rw [lineStartA_cons_newline rest j hj, lineEndA_cons_newline rest j hj,
                  sliceSpan_cons_succ, List.getElem?_cons_succ, ← hsp]
                exact ih j hj
          · rw [if_neg hc]
            cases i with
            | zero =>
                rw [show lineStartA (c :: rest) 0 = 0 from rfl,
                  lineEndA_cons_other hc rest 0 (Nat.zero_le _), sliceSpan_cons_zero]
                have h00 := ih 0 (Nat.zero_le _)
                rw [hsp] at h00
                simp only [List.getElem?_cons_zero, Option.some.injEq] at h00
                rw [show lineStartA rest 0 = 0 from rfl] at h00
                rw [List.getElem?_cons_zero, h00]
            | succ j =>
                have hj1 : j + 1 ≤ (newlinePositions rest).length := by
                  rw [nl_cons_other hc] at hi
                  simpa using hi
                rw [lineStartA_cons_other hc rest j hj1,
                  lineEndA_cons_other hc rest (j + 1) hj1, sliceSpan_cons_succ,
                  List.getElem?_cons_succ]
                have hrec := ih (j + 1) hj1
                rw [hsp, List.getElem?_cons_succ] at hrec
                exact hrec

/-- C10: on a well-formed buffer the document always has at least one line
(the empty document has exactly one, the empty string); getLine returns
none exactly for negative or out-of-range line numbers and otherwise the
line's text without its terminating newline (the corresponding entry of
splitting the document on newlines); getChar returns the character at the
position and none for any out-of-range access. -/
theorem line_access_spec :
    (∀ st : RopeModel, goodNode st.root = true →
      1 ≤ st.getLineCount ∧
      st.getLineCount = (splitLines st.getAll).length ∧
      (∀ line : Int, st.getLine line = none
        ↔ (line < 0 ∨ (st.getLineCount : Int) ≤ line)) ∧
      (∀ line : Int, 0 ≤ line → line < (st.getLineCount : Int) →
        st.getLine line = (splitLines st.getAll)[line.toNat]?) ∧
      (∀ line char : Int, 0 ≤ line → 0 ≤ char →
        st.getChar line char =
          match (splitLines st.getAll)[line.toNat]? with
          | none => none
          | some t => t[char.toNat]?) ∧
      (∀ line char : Int, line < 0 ∨ char < 0 →
        st.getChar line char = none)) ∧
    (ofText []).getLine 0 = some [] := by
  refine ⟨?_, by decide⟩
  intro st h
  have hlc := getLineCount_eq h
  have hga : st.getAll = toText st.root := getAll_eq h
  have hsl : (splitLines st.getAll).length
      = (newlinePositions (toText st.root)).length + 1 := by
    rw [hga, splitLines_length]
  refine ⟨by omega, by omega, ?_, ?_, ?_, ?_⟩
  · intro line
    by_cases hneg : line < 0 ∨ (st.getLineCount : Int) ≤ line
    · rw [getLine, if_pos hneg]
      simp [hneg]
    · push_neg at hneg
      obtain ⟨h0, hlt⟩ := hneg
      obtain ⟨n, rfl⟩ := Int.eq_ofNat_of_zero_le h0
      have hn : n ≤ (newlinePositions (toText st.root)).length := by
        have hn2 : n < st.getLineCount := by exact_mod_cast hlt
        omega
      rw [getLine_spec h hn]
      constructor
      · intro hcontr
        exact absurd hcontr (Option.some_ne_none _)
      · intro hcontr
        rcases hcontr with hcontr | hcontr
        · exact absurd hcontr (by omega)
        · exact absurd hlt (not_lt.mpr hcontr)
  · intro line h0 hlt
    obtain ⟨n, rfl⟩ := Int.eq_ofNat_of_zero_le h0
    have hn : n ≤ (newlinePositions (toText st.root)).length := by
      have hn2 : n < st.getLineCount := by exact_mod_cast hlt
      omega
    simp only [Int.toNat_natCast]
    rw [getLine_spec h hn, hga, splitLines_get (toText st.root) n hn]
  · intro line char h0 hc0
    obtain ⟨n, rfl⟩ := Int.eq_ofNat_of_zero_le h0
    simp only [Int.toNat_natCast]
    rw [getChar]
    by_cases hlt : n < st.getLineCount
    · have hn : n ≤ (newlinePositions (toText st.root)).length := by omega
      rw [getLine_spec h hn]
      dsimp only
      rw [if_neg (by omega : ¬ char < 0)]
      rw [hga, splitLines_get (toText st.root) n hn]
    · have hnone : (splitLines st.getAll)[n]? = none := by
        apply List.getElem?_eq_none
        omega
      rw [getLine, if_pos (Or.inr (by exact_mod_cast not_lt.mp hlt))]
      rw [hnone]
  · intro line char hneg
    rw [getChar]
    rcases hneg with hl | hch
    · rw [getLine, if_pos (Or.inl hl)]
    · cases hgl : st.getLine line with
      | none => rfl
      | some t =>
          dsimp only
          rw [if_pos hch]

/-- C10 witness: the claim instantiated on the buffer "a\nb". -/
theorem line_access_spec_witness :
    goodNode (ofText "a\nb".toList).root = true ∧
    (1 ≤ (ofText "a\nb".toList).getLineCount ∧
     (ofText "a\nb".toList).getLineCount
        = (splitLines ((ofText "a\nb".toList).getAll)).length ∧
     (∀ line : Int, (ofText "a\nb".toList).getLine line = none
        ↔ (line < 0 ∨ ((ofText "a\nb".toList).getLineCount : Int) ≤ line)) ∧
     (∀ line : Int, 0 ≤ line → line < ((ofText "a\nb".toList).getLineCount : Int) →
        (ofText "a\nb".toList).getLine line
          = (splitLines ((ofText "a\nb".toList).getAll))[line.toNat]?) ∧
     (∀ line char : Int, 0 ≤ line → 0 ≤ char →
        (ofText "a\nb".toList).getChar line char =
          match (splitLines ((ofText "a\nb".toList).getAll))[line.toNat]? with
          | none => none
          | some t => t[char.toNat]?) ∧
     (∀ line char : Int, line < 0 ∨ char < 0 →
        (ofText "a\nb".toList).getChar line char = none)) :=
  ⟨by decide, line_access_spec.1 (ofText "a\nb".toList) (by decide)⟩
